import Mathlib

/-!
# HalfGammon: move legality and board mutation

A shallow embedding of `src/HalfGammon.cpp`.

* The two C++ arrays `int Xarray[18]`, `int Oarray[18]` are functions
  `Fin 18 → Int`.  Index 0 is the bar of X, index 17 is the bar of O, indices
  1..16 are the points.
* `start` is used by the source as an array index without any range check, so
  it is a `Fin 18` here (an index outside 0..17 has no defined behaviour in
  C++; `main` only ever passes 0, 17 or an input checked to lie in 1..16).
* `dest` is an arbitrary `Int`: every access `array[dest]` of the source is
  guarded by `dest >= 1 && dest <= 16`.
* Counts are mathematical integers; the `int` arithmetic of the source agrees
  with them as long as no signed overflow occurs.
-/

namespace HalfGammon

/-- An `int[18]` array of the source. -/
abbrev Arr := Fin 18 → Int

/-- The array `a` after the assignment `a[i] = v`. -/
def Arr.set (a : Arr) (i : Fin 18) (v : Int) : Arr :=
  fun j => if j = i then v else a j

/-- The array index denoted by an `int`.  It is the identity on 0..17; the
source only indexes with `dest` under the guard `1 <= dest <= 16`. -/
def idx (d : Int) : Fin 18 := ⟨d.toNat % 18, Nat.mod_lt _ (by decide)⟩

/-- The two sides; `X` moves towards higher points, `O` towards lower ones. -/
inductive Side where
  | X : Side
  | O : Side
  deriving DecidableEq, Repr

/-- Source `validMoveX` (HalfGammon.cpp, lines 235-263). -/
def validMoveX (start : Fin 18) (dest : Int) (Xarray Oarray : Arr) : Bool :=
  if Xarray start = 0 then false
  else if dest > 16 then true
  else if dest ≥ 1 ∧ dest ≤ 16 then
    if Oarray (idx dest) = 0 ∨ Oarray (idx dest) = 1 then true
    else if Oarray (idx dest) > 1 then false
    else if Xarray (idx dest) < 5 then true
    else false
  else false

/-- Source `validMoveO` (HalfGammon.cpp, lines 265-293). -/
def validMoveO (start : Fin 18) (dest : Int) (Xarray Oarray : Arr) : Bool :=
  if Oarray start = 0 then false
  else if dest < 1 then true
  else if dest ≥ 1 ∧ dest ≤ 16 then
    if Xarray (idx dest) = 0 ∨ Xarray (idx dest) = 1 then true
    else if Xarray (idx dest) > 1 then false
    else if Oarray (idx dest) < 5 then true
    else false
  else false

/-- Source `moveX` (HalfGammon.cpp, lines 294-317).  The result is the pair
`(Xarray, Oarray)` after the call; the statements of the hit branch are applied
in the order of the source. -/
def moveX (start : Fin 18) (dest : Int) (Xarray Oarray : Arr) : Arr × Arr :=
  if dest > 16 then
    (Xarray.set start (Xarray start - 1), Oarray)
  else if validMoveX start dest Xarray Oarray then
    if Oarray (idx dest) = 1 then
      let O1 := Oarray.set (idx dest) (Oarray (idx dest) - 1)
      let X1 := Xarray.set (idx dest) (Xarray (idx dest) + 1)
      let X2 := X1.set start (X1 start - 1)
      let O2 := O1.set 17 (O1 17 + 1)
      (X2, O2)
    else
      let X1 := Xarray.set start (Xarray start - 1)
      let X2 := X1.set (idx dest) (X1 (idx dest) + 1)
      (X2, Oarray)
  else
    (Xarray, Oarray)

/-- Source `moveO` (HalfGammon.cpp, lines 319-342). -/
def moveO (start : Fin 18) (dest : Int) (Xarray Oarray : Arr) : Arr × Arr :=
  if dest < 1 then
    (Xarray, Oarray.set start (Oarray start - 1))
  else if validMoveO start dest Xarray Oarray then
    if Xarray (idx dest) = 1 then
      let X1 := Xarray.set (idx dest) (Xarray (idx dest) - 1)
      let O1 := Oarray.set (idx dest) (Oarray (idx dest) + 1)
      let O2 := O1.set start (O1 start - 1)
      let X2 := X1.set 0 (X1 0 + 1)
      (X2, O2)
    else
      let O1 := Oarray.set start (Oarray start - 1)
      let O2 := O1.set (idx dest) (O1 (idx dest) + 1)
      (Xarray, O2)
  else
    (Xarray, Oarray)

/-- Source `countCheckers` (HalfGammon.cpp, lines 344-350): the loop
`for (i = 0; i <= 17; i++) count += array[i]`. -/
def countCheckers (array : Arr) : Int :=
  (List.finRange 18).foldl (fun count i => count + array i) 0

/-- The sixteen points 1..16, in the order the loops of `main` visit them. -/
def points : List (Fin 18) :=
  [1, 2, 3, 4, 5, 6, 7, 8, 9, 10, 11, 12, 13, 14, 15, 16]

/-- Number of checkers of one array standing on the points 1..16. -/
def onPoints (array : Arr) : Int :=
  (points.map array).sum

/-- One applied move, as `main` performs it: the side, the start and the
destination handed to `moveX` / `moveO`. -/
structure Applied where
  side : Side
  start : Fin 18
  dest : Int
  deriving DecidableEq

/-- Whether an applied move is a bearing-off move (`dest > 16` for X,
`dest < 1` for O). -/
def Applied.isBearOff (m : Applied) : Bool :=
  match m.side with
  | Side.X => decide (m.dest > 16)
  | Side.O => decide (m.dest < 1)

/-- The variables of `main` that survive one iteration of the game loop,
together with the winner announced on the console and the record of the moves
applied so far (most recent first).  The record is not a variable of the
source: it is what `main` has done, and the borne-off counts are read off it. -/
structure Game where
  Xarray : Arr
  Oarray : Arr
  Xturn : Bool
  gameOver : Bool
  winner : Option Side
  history : List Applied

/-- The state of `main` before the first iteration (lines 39-43). -/
def initial : Game where
  Xarray := fun i => if i = 1 then 5 else if i = 3 then 2 else 0
  Oarray := fun i => if i = 14 then 2 else if i = 16 then 5 else 0
  Xturn := true
  gameOver := false
  winner := none
  history := []

/-- Number of checkers a side has borne off: the number of bearing-off moves it
has made. -/
def borneOff (s : Side) (g : Game) : Int :=
  ((g.history.filter (fun m => decide (m.side = s) && m.isBearOff)).length : Int)

/-- The flag `mustMove` of `main` (lines 68-74). -/
def mustMove (Xturn : Bool) (Xarray Oarray : Arr) : Bool :=
  if Xturn ∧ Xarray 0 ≠ 0 then true
  else if ¬ Xturn ∧ Oarray 17 ≠ 0 then true
  else false

/-- The flag `movePossible` of `main` (lines 80-108). -/
def movePossible (Xturn : Bool) (roll : Int) (Xarray Oarray : Arr) : Bool :=
  if mustMove Xturn Xarray Oarray then
    if Xturn then validMoveX 0 roll Xarray Oarray
    else validMoveO 17 (17 - roll) Xarray Oarray
  else
    if Xturn then
      points.any (fun pos => decide (Xarray pos > 0) &&
        validMoveX pos ((pos.val : Int) + roll) Xarray Oarray)
    else
      points.any (fun pos => decide (Oarray pos > 0) &&
        validMoveO pos ((pos.val : Int) - roll) Xarray Oarray)

/-- The code after a move has been applied (e.g. lines 126-140): the two
`countCheckers` calls, the win test, and the change of turn at lines 228-230. -/
def afterMove (g : Game) (m : Applied) (XO : Arr × Arr) : Game :=
  let countX := countCheckers XO.1
  let countO := countCheckers XO.2
  if countX = 0 then
    { Xarray := XO.1, Oarray := XO.2, Xturn := g.Xturn, gameOver := true,
      winner := some Side.X, history := m :: g.history }
  else if countO = 0 then
    { Xarray := XO.1, Oarray := XO.2, Xturn := g.Xturn, gameOver := true,
      winner := some Side.O, history := m :: g.history }
  else
    { Xarray := XO.1, Oarray := XO.2, Xturn := ! g.Xturn, gameOver := false,
      winner := none, history := m :: g.history }

/-- What one iteration of the game loop of `main` comes to. -/
inductive TurnResult where
  /-- The iteration ran to its end and left this state. -/
  | next (g : Game) : TurnResult
  /-- The player entered -1 and `main` returned. -/
  | quit : TurnResult
  /-- The move selection loop is still running: it waits for more input, or
  it repeats without reading any. -/
  | looping : TurnResult

/-- The move selection loop of a free turn (lines 165-225), run on the numbers
the player types.  An entry outside 1..16 other than -1, and a start whose move
is not valid, both print "Invalid move. Try again." and read again. -/
def selectMove (g : Game) (roll : Int) : List Int → TurnResult
  | [] => TurnResult.looping
  | start :: rest =>
    if start = -1 ∨ (start ≥ 1 ∧ start ≤ 16) then
      if start = -1 then TurnResult.quit
      else
        let dest := if g.Xturn then start + roll else start - roll
        if g.Xturn ∧ validMoveX (idx start) dest g.Xarray g.Oarray then
          TurnResult.next (afterMove g ⟨Side.X, idx start, dest⟩
            (moveX (idx start) dest g.Xarray g.Oarray))
        else if ¬ g.Xturn ∧ validMoveO (idx start) dest g.Xarray g.Oarray then
          TurnResult.next (afterMove g ⟨Side.O, idx start, dest⟩
            (moveO (idx start) dest g.Xarray g.Oarray))
        else selectMove g roll rest
    else selectMove g roll rest

/-- One iteration of the game loop of `main` (lines 56-231) with the given roll
and the numbers the player types during it. -/
def turn (g : Game) (roll : Int) (inputs : List Int) : TurnResult :=
  if ¬ movePossible g.Xturn roll g.Xarray g.Oarray then
    TurnResult.next { g with Xturn := ! g.Xturn }
  else if mustMove g.Xturn g.Xarray g.Oarray then
    if g.Xturn then
      if validMoveX 0 roll g.Xarray g.Oarray then
        TurnResult.next (afterMove g ⟨Side.X, 0, roll⟩ (moveX 0 roll g.Xarray g.Oarray))
      else TurnResult.looping
    else
      if validMoveO 17 (17 - roll) g.Xarray g.Oarray then
        TurnResult.next (afterMove g ⟨Side.O, 17, 17 - roll⟩
          (moveO 17 (17 - roll) g.Xarray g.Oarray))
      else TurnResult.looping
  else selectMove g roll inputs

/-- The states `main` can be in at the head of its game loop: the starting
state, and every state left by an iteration that began with the game not over
and a roll in 1..6. -/
inductive Reachable : Game → Prop where
  | start : Reachable initial
  | step {g g1 : Game} (roll : Int) (inputs : List Int) :
      Reachable g → g.gameOver = false → 1 ≤ roll → roll ≤ 6 →
      turn g roll inputs = TurnResult.next g1 → Reachable g1

/-- Runs the game loop on a script of (roll, typed numbers) pairs, one pair per
iteration; `none` when a roll is outside 1..6, when the game is already over, or
when an iteration does not run to its end. -/
def play (g : Game) : List (Int × List Int) → Option Game
  | [] => some g
  | (roll, inputs) :: rest =>
    if g.gameOver = false ∧ 1 ≤ roll ∧ roll ≤ 6 then
      match turn g roll inputs with
      | TurnResult.next g1 => play g1 rest
      | _ => none
    else none

/-- A board with two O checkers on point 4 and two X checkers on point 13. -/
def blockedX : Arr := fun i => if i = 1 then 5 else if i = 13 then 2 else 0

/-- The O array of the board of `blockedX`. -/
def blockedO : Arr := fun i => if i = 4 then 2 else if i = 16 then 5 else 0

/-- A board on which X can hit the single O checker on point 4 and O can hit
the single X checker on point 13. -/
def hitX : Arr := fun i => if i = 1 then 5 else if i = 13 then 1 else 0

/-- The O array of the board of `hitX`. -/
def hitO : Arr := fun i => if i = 4 then 1 else if i = 16 then 5 else 0

/-- The facts about the two arrays that every iteration of the game loop
keeps: no negative count, nothing of X at index 17 and nothing of O at index 0
(the other side's bar), and no index holding checkers of both sides. -/
structure BoardOK (Xarray Oarray : Arr) : Prop where
  nonnegX : ∀ i, 0 ≤ Xarray i
  nonnegO : ∀ i, 0 ≤ Oarray i
  lastX : Xarray 17 = 0
  firstO : Oarray 0 = 0
  excl : ∀ i, Xarray i = 0 ∨ Oarray i = 0

/-- The facts about the state of `main` that hold at the head of every
iteration of the game loop. -/
structure Inv (g : Game) : Prop where
  board : BoardOK g.Xarray g.Oarray
  totalX : countCheckers g.Xarray + borneOff Side.X g = 7
  totalO : countCheckers g.Oarray + borneOff Side.O g = 7
  running : g.gameOver = false →
    countCheckers g.Xarray ≠ 0 ∧ countCheckers g.Oarray ≠ 0 ∧ g.winner = none
  over : g.gameOver = true →
    (g.winner = some Side.X ∧ countCheckers g.Xarray = 0 ∧ countCheckers g.Oarray ≠ 0) ∨
    (g.winner = some Side.O ∧ countCheckers g.Oarray = 0 ∧ countCheckers g.Xarray ≠ 0)

/-- The move a free turn applies when the player's accepted entry is `s`:
`g1` is the state after the move from `s` by `roll` in the direction of the side
to move, which the legality predicate of that side accepts. -/
def FreeMove (g : Game) (roll s : Int) (g1 : Game) : Prop :=
  (g.Xturn = true ∧ validMoveX (idx s) (s + roll) g.Xarray g.Oarray = true ∧
    g1 = afterMove g ⟨Side.X, idx s, s + roll⟩
      (moveX (idx s) (s + roll) g.Xarray g.Oarray)) ∨
  (g.Xturn = false ∧ validMoveO (idx s) (s - roll) g.Xarray g.Oarray = true ∧
    g1 = afterMove g ⟨Side.O, idx s, s - roll⟩
      (moveO (idx s) (s - roll) g.Xarray g.Oarray))

/-- The state `play` ends in, or the state it started from when the script
cannot be run to its end. -/
def playD (g : Game) (script : List (Int × List Int)) : Game :=
  (play g script).getD g

/-- Eight iterations in which every roll is 2, X always plays from point 1 and
O always plays from point 16. -/
def stackScript : List (Int × List Int) :=
  [(2, [1]), (2, [16]), (2, [1]), (2, [16]), (2, [1]), (2, [16]), (2, [1]), (2, [16])]

/-- The first six iterations of `stackScript`. -/
def stackScript6 : List (Int × List Int) := stackScript.take 6

/-- Two iterations: X plays 3 -> 9 with a roll of 6, then O plays 14 -> 9 with a
roll of 5 and hits the X checker there. -/
def hitScript : List (Int × List Int) := [(6, [3]), (5, [14])]

/-- A whole game of 41 iterations in which every roll is 6: X brings its seven
checkers off over the points 1, 7, 13 and 3, 9, 15, O moves over 16, 10, 4 and
14, 8, 2, and no checker ever meets an opposing one. -/
def raceScript : List (Int × List Int) :=
  [(6, [1]), (6, [16]), (6, [1]), (6, [16]), (6, [1]), (6, [16]), (6, [1]), (6, [16]),
   (6, [1]), (6, [16]), (6, [3]), (6, [14]), (6, [3]), (6, [14]),
   (6, [7]), (6, [10]), (6, [7]), (6, [10]), (6, [7]), (6, [10]), (6, [7]), (6, [10]),
   (6, [7]), (6, [10]), (6, [9]), (6, [8]), (6, [9]), (6, [8]),
   (6, [13]), (6, [4]), (6, [13]), (6, [4]), (6, [13]), (6, [4]), (6, [13]), (6, [4]),
   (6, [13]), (6, [4]), (6, [15]), (6, [2]), (6, [15])]

/-- The array of a side. -/
def Game.arrayOf (g : Game) : Side → Arr
  | Side.X => g.Xarray
  | Side.O => g.Oarray

/-- The pair of arrays left by `moveX` or `moveO`, according to the side of the
move. -/
def applyMove (m : Applied) (Xarray Oarray : Arr) : Arr × Arr :=
  match m.side with
  | Side.X => moveX m.start m.dest Xarray Oarray
  | Side.O => moveO m.start m.dest Xarray Oarray

/-- The states at the head of the game loop of `main` while it runs a script of
(roll, typed numbers) pairs, the starting state first.  The list ends where
`play` would stop: at the end of the script, when the game is over, at a roll
outside 1..6, or at an iteration that does not run to its end. -/
def trace (g : Game) : List (Int × List Int) → List Game
  | [] => [g]
  | (roll, inputs) :: rest =>
    if g.gameOver = false ∧ 1 ≤ roll ∧ roll ≤ 6 then
      match turn g roll inputs with
      | TurnResult.next g1 => g :: trace g1 rest
      | _ => [g]
    else [g]

/-- State `x` follows state `p` by a bearing-off move of side `s` that takes the
last checker of `s` off the board. -/
def LastBearOff (s : Side) (p x : Game) : Prop :=
  ∃ m : Applied, x.history = m :: p.history ∧ m.side = s ∧ m.isBearOff = true ∧
    (x.Xarray, x.Oarray) = applyMove m p.Xarray p.Oarray ∧
    countCheckers (p.arrayOf s) = 1 ∧ countCheckers (x.arrayOf s) = 0

end HalfGammon

/-!
# Connect Four: dropping a piece and checking for a win

A shallow embedding of `makeMove` and `checkWin` of `src/ConnectFour.cpp`.

* The C++ array `char board[6][7]` is a function `Fin 6 → Fin 7 → Char`; row 0
  is the top row, row 5 the bottom row, and an empty cell holds `'-'`.
* The `row` and `col` arguments are array indices used without a range check,
  so they are a `Fin 6` and a `Fin 7` here (`main` passes `chosenCol - 1` with
  `chosenCol` checked to lie in 1..7, and the row `makeMove` returned).
* The loop variables `currRow`, `currCol` and `count` are integers.
-/

namespace ConnectFour

/-- The `char board[6][7]` of the source. -/
abbrev Board := Fin 6 → Fin 7 → Char

/-- The board after the assignment `board[r][c] = v`. -/
def Board.set (board : Board) (r : Fin 6) (c : Fin 7) (v : Char) : Board :=
  fun i j => if i = r ∧ j = c then v else board i j

/-- The row index denoted by an `int`; the identity on 0..5. -/
def rowIdx (r : Int) : Fin 6 := ⟨r.toNat % 6, Nat.mod_lt _ (by decide)⟩

/-- The column index denoted by an `int`; the identity on 0..6. -/
def colIdx (c : Int) : Fin 7 := ⟨c.toNat % 7, Nat.mod_lt _ (by decide)⟩

/-- The cell `board[r][c]` for `int` indices.  Every access of `checkWin` is
guarded so that `r` lies in 0..5 and `c` in 0..6. -/
def Board.cell (board : Board) (r c : Int) : Char := board (rowIdx r) (colIdx c)

/-- The loop of `makeMove` (lines 124-130) over the rows still to visit: the
first row of the list whose cell in column `col` is `'-'` receives `player` and
is returned; -1 is returned when the list is used up. -/
def makeMoveLoop (board : Board) (col : Fin 7) (player : Char) :
    List (Fin 6) → Int × Board
  | [] => (-1, board)
  | r :: rest =>
    if board r col = '-' then ((r.val : Int), board.set r col player)
    else makeMoveLoop board col player rest

/-- Source `makeMove` (ConnectFour.cpp, lines 120-132): the returned row and
the board after the call.  The loop runs `r` from 5 down to 0. -/
def makeMove (board : Board) (col : Fin 7) (player : Char) : Int × Board :=
  makeMoveLoop board col player [5, 4, 3, 2, 1, 0]

/-- One counting loop of `checkWin`,
`while (guard(currRow, currCol) && board[currRow][currCol] == player)
 { count++; currRow += dr; currCol += dc; }`,
run for at most `fuel` iterations from `(currRow, currCol) = (r, c)`; the result
is the final `count`. -/
def countLoop (board : Board) (player : Char) (guard : Int → Int → Bool) (dr dc : Int) :
    Nat → Int → Int → Int → Int
  | 0, _, _, count => count
  | fuel + 1, r, c, count =>
    if guard r c = true ∧ board.cell r c = player then
      countLoop board player guard dr dc fuel (r + dr) (c + dc) (count + 1)
    else count

/-- Source `checkWin` (ConnectFour.cpp, lines 142-240) with every loop allowed
`fuel` iterations: the horizontal, vertical and two diagonal counts, each with
the guard the source writes for it. -/
def checkWinFuel (fuel : Nat) (board : Board) (row : Fin 6) (col : Fin 7)
    (player : Char) : Bool :=
  let r : Int := (row.val : Int)
  let c : Int := (col.val : Int)
  let count := countLoop board player (fun _ cc => decide (cc ≥ 0)) 0 (-1) fuel r (c - 1) 1
  let count := countLoop board player (fun _ cc => decide (cc ≤ 6)) 0 1 fuel r (c + 1) count
  if count ≥ 4 then true
  else
    let count := countLoop board player (fun rr _ => decide (rr ≤ 5)) 1 0 fuel (r + 1) c 1
    if count ≥ 4 then true
    else
      let count := countLoop board player (fun rr cc => decide (rr ≥ 0 ∧ cc ≥ 0))
        (-1) (-1) fuel (r - 1) (c - 1) 1
      let count := countLoop board player (fun rr cc => decide (rr ≤ 5 ∧ cc ≤ 6))
        1 1 fuel (r + 1) (c + 1) count
      if count ≥ 4 then true
      else
        let count := countLoop board player (fun rr cc => decide (rr < 6 ∧ cc ≥ 0))
          1 (-1) fuel (r + 1) (c - 1) 1
        let count := countLoop board player (fun rr cc => decide (rr ≥ 0 ∧ cc < 7))
          (-1) 1 fuel (r - 1) (c + 1) count
        if count ≥ 4 then true else false

/-- Source `checkWin`.  Every loop of the source moves one cell per iteration
and stops at the edge of the 6x7 grid, so none runs more than 6 times and a
fuel of 7 is never used up. -/
def checkWin (board : Board) (row : Fin 6) (col : Fin 7) (player : Char) : Bool :=
  checkWinFuel 7 board row col player

/-- The cell `(r, c)` lies on the 6x7 board. -/
def inGrid (r c : Int) : Prop := 0 ≤ r ∧ r ≤ 5 ∧ 0 ≤ c ∧ c ≤ 6

/-- The cell `k` steps from `(row, col)` in direction `(dr, dc)` lies on the
board and holds `player`. -/
def HoldsAt (board : Board) (player : Char) (row col dr dc k : Int) : Prop :=
  inGrid (row + k * dr) (col + k * dc) ∧ board.cell (row + k * dr) (col + k * dc) = player

/-- Four consecutive cells of the line through `(row, col)` in direction
`(dr, dc)` that include `(row, col)` all hold `player`: the four cells are the
ones `0 - j, 1 - j, 2 - j, 3 - j` steps from `(row, col)`, for some `j` in
0..3. -/
def FourAlong (board : Board) (player : Char) (row col dr dc : Int) : Prop :=
  ∃ j : Nat, j ≤ 3 ∧ ∀ t : Nat, t ≤ 3 → HoldsAt board player row col dr dc ((t : Int) - j)

/-- Four consecutive cells in one horizontal, vertical or diagonal line (either
diagonal direction) that include `(row, col)` all hold `player`. -/
def FourInLine (board : Board) (player : Char) (row : Fin 6) (col : Fin 7) : Prop :=
  FourAlong board player row.val col.val 0 1 ∨ FourAlong board player row.val col.val 1 0 ∨
  FourAlong board player row.val col.val 1 1 ∨ FourAlong board player row.val col.val (-1) 1

/-- The empty board `main` starts from. -/
def emptyBoard : Board := fun _ _ => '-'

/-- The board after the listed drops, each a column and a piece, made by
`makeMove` in order. -/
def dropAll (board : Board) : List (Fin 7 × Char) → Board
  | [] => board
  | (col, player) :: rest => dropAll (makeMove board col player).2 rest

/-- A position in which red has three pieces on the bottom row in columns 0, 1
and 2 and yellow three pieces on top of them. -/
def threeInRow : Board :=
  dropAll emptyBoard [(0, 'R'), (0, 'Y'), (1, 'R'), (1, 'Y'), (2, 'R'), (2, 'Y')]

/-- The loop of `checkTie` (lines 249-253) over the columns still to visit:
false at the first column whose top cell is `'-'`, true when the list is used
up. -/
def checkTieLoop (board : Board) : List (Fin 7) → Bool
  | [] => true
  | col :: rest => if board 0 col = '-' then false else checkTieLoop board rest

/-- Source `checkTie` (ConnectFour.cpp, lines 247-255).  The loop runs `col`
from 0 up to 6 and looks at row 0 only. -/
def checkTie (board : Board) : Bool :=
  checkTieLoop board [0, 1, 2, 3, 4, 5, 6]

/-- The boards reachable from the all-`'-'` board by successful `makeMove`
calls (calls that do not return -1), for any column and any piece. -/
inductive Dropped : Board → Prop where
  | start : Dropped emptyBoard
  | drop {board : Board} (col : Fin 7) (player : Char) :
      Dropped board → (makeMove board col player).1 ≠ -1 →
      Dropped (makeMove board col player).2

/-- In every column the cells below a filled cell are filled. -/
def Settled (board : Board) : Prop :=
  ∀ (c : Fin 7) (r i : Fin 6), r < i → board r c ≠ '-' → board i c ≠ '-'

/-- A full board: the 42 cells alternate `'R'` and `'Y'`. -/
def fullBoard : Board := fun r c => if (r.val + c.val) % 2 = 0 then 'R' else 'Y'

/-- The board `threeInRow` is made of six successful drops. -/
def sixDrops : List (Fin 7 × Char) :=
  [(0, 'R'), (0, 'Y'), (1, 'R'), (1, 'Y'), (2, 'R'), (2, 'Y')]

/-- Forty-two drops, six into each column from column 0 to column 6, the
pieces alternating. -/
def fullDrops : List (Fin 7 × Char) :=
  [(0, 'R'), (0, 'Y'), (0, 'R'), (0, 'Y'), (0, 'R'), (0, 'Y'),
   (1, 'R'), (1, 'Y'), (1, 'R'), (1, 'Y'), (1, 'R'), (1, 'Y'),
   (2, 'R'), (2, 'Y'), (2, 'R'), (2, 'Y'), (2, 'R'), (2, 'Y'),
   (3, 'R'), (3, 'Y'), (3, 'R'), (3, 'Y'), (3, 'R'), (3, 'Y'),
   (4, 'R'), (4, 'Y'), (4, 'R'), (4, 'Y'), (4, 'R'), (4, 'Y'),
   (5, 'R'), (5, 'Y'), (5, 'R'), (5, 'Y'), (5, 'R'), (5, 'Y'),
   (6, 'R'), (6, 'Y'), (6, 'R'), (6, 'Y'), (6, 'R'), (6, 'Y')]

end ConnectFour

/-!
# Triangular peg solitaire: move validity and the board update

A shallow embedding of `src/pegGame.cpp`.

* The fifteen global `char` variables `A` .. `O` are a function
  `Fin 15 → Char` (hole 0 is `A`, hole 14 is `O`); the `static char invalid` of
  `getPeg` and the global `pegCount` are part of the state as well, because
  `getPeg` hands out a reference to `invalid` for every character that names no
  hole.
* A peg is `'T'`, an empty hole is `'.'`.
* Characters are compared by their codes, as the source compares the letters
  of the board; a character that names no hole is rejected by the first test
  of `isValid`, before its row or column is used.
* The player's input is a list of characters.
-/

namespace PegGame

/-- The global variables of the program: the fifteen holes, the `invalid`
character of `getPeg`, and `pegCount`. -/
structure State where
  hole : Fin 15 → Char
  invalid : Char
  pegCount : Int

/-- The `switch` of `getPeg` (lines 219-237): the hole a character names, if
any. -/
def holeOf : Char → Option (Fin 15)
  | 'A' => some 0
  | 'B' => some 1
  | 'C' => some 2
  | 'D' => some 3
  | 'E' => some 4
  | 'F' => some 5
  | 'G' => some 6
  | 'H' => some 7
  | 'I' => some 8
  | 'J' => some 9
  | 'K' => some 10
  | 'L' => some 11
  | 'M' => some 12
  | 'N' => some 13
  | 'O' => some 14
  | _ => none

/-- Source `getPeg`, read: the character behind the returned reference. -/
def getPeg (s : State) (peg : Char) : Char :=
  match holeOf peg with
  | some i => s.hole i
  | none => s.invalid

/-- Source `getPeg`, written: the state after an assignment through the
returned reference. -/
def setPeg (s : State) (peg : Char) (v : Char) : State :=
  match holeOf peg with
  | some i => { s with hole := fun j => if j = i then v else s.hole j }
  | none => { s with invalid := v }

/-- Source `row` (lines 116-136). -/
def row (peg : Char) : Int :=
  if peg ≥ 'K' then 5
  else if peg ≥ 'G' then 4
  else if peg ≥ 'D' then 3
  else if peg ≥ 'B' then 2
  else if peg = 'A' then 1
  else -1

/-- Source `col` (lines 143-163); `peg - 'K'` is the difference of the
character codes. -/
def col (peg : Char) : Int :=
  if peg ≥ 'K' then (peg.toNat : Int) - ('K'.toNat : Int) + 1
  else if peg ≥ 'G' then (peg.toNat : Int) - ('G'.toNat : Int) + 1
  else if peg ≥ 'D' then (peg.toNat : Int) - ('D'.toNat : Int) + 1
  else if peg ≥ 'B' then (peg.toNat : Int) - ('B'.toNat : Int) + 1
  else if peg = 'A' then 1
  else -1

/-- Source `isValid` (lines 166-214).  `abs` is `Int.natAbs` and `/ 2` is the
truncating division of C++. -/
def isValid (s : State) (frm over dest : Char) : Bool :=
  let fromPeg := getPeg s frm
  let overPeg := getPeg s over
  let toPeg := getPeg s dest
  let fromRow := row frm
  let fromCol := col frm
  let overRow := row over
  let overCol := col over
  let toRow := row dest
  let toCol := col dest
  if fromPeg = '?' ∨ overPeg = '?' ∨ toPeg = '?' then false
  else
    let isHorizontal : Bool := decide (fromRow = toRow ∧ (fromCol - toCol).natAbs = 2)
    let isVertical : Bool := decide (fromCol = toCol ∧ (fromRow - toRow).natAbs = 2)
    let isDiagonal : Bool :=
      decide ((fromRow - toRow).natAbs = 2 ∧ (fromCol - toCol).natAbs = 2)
    if ¬ (isHorizontal ∨ isVertical ∨ isDiagonal) then false
    else if Int.tdiv (fromRow + toRow) 2 ≠ overRow ∨ Int.tdiv (fromCol + toCol) 2 ≠ overCol
    then false
    else if isDiagonal = true ∧
        ((fromRow - toRow > 0 ∧ fromCol - toCol < 0) ∨
         (fromRow - toRow < 0 ∧ fromCol - toCol > 0)) then false
    else if fromPeg ≠ 'T' ∨ overPeg ≠ 'T' ∨ toPeg = 'T' then false
    else true

/-- Source `updateBoard` (lines 252-263): the three assignments through
`getPeg`, in the order of the source, and `pegCount--`. -/
def updateBoard (s : State) (frm over dest : Char) : State :=
  let s1 := setPeg s frm '.'
  let s2 := setPeg s1 over '.'
  let s3 := setPeg s2 dest 'T'
  { s3 with pegCount := s3.pegCount - 1 }

/-- The state after the initialisation at the head of `main` (lines 64-70). -/
def initial : State where
  hole := fun i => if i = 0 then '.' else 'T'
  invalid := '?'
  pegCount := 14

/-- What one iteration of the loop of `main` comes to. -/
inductive Outcome where
  /-- The win message is printed and the loop is left. -/
  | win : Outcome
  /-- The player entered `Q` and the loop is left. -/
  | quit : Outcome
  /-- The loop goes round again with this state. -/
  | next (s : State) : Outcome

/-- One iteration of the loop of `main` (lines 73-105) on the word the player
enters. -/
def step (s : State) (move : List Char) : Outcome :=
  if s.pegCount = 1 then Outcome.win
  else if move = ['Q'] then Outcome.quit
  else
    match move with
    | [frm, over, dest] =>
      if isValid s frm over dest then Outcome.next (updateBoard s frm over dest)
      else Outcome.next s
    | _ => Outcome.next s

/-- The states reachable from the initial board by moves that `isValid`
accepts and `updateBoard` applies. -/
inductive Reachable : State → Prop where
  | start : Reachable initial
  | move {s : State} (frm over dest : Char) :
      Reachable s → isValid s frm over dest = true → Reachable (updateBoard s frm over dest)

/-- The state after a list of moves, each applied by `updateBoard` when
`isValid` accepts it and skipped otherwise. -/
def playMoves (s : State) : List (Char × Char × Char) → State
  | [] => s
  | (frm, over, dest) :: rest =>
    if isValid s frm over dest then playMoves (updateBoard s frm over dest) rest
    else playMoves s rest

/-- The letter of a hole. -/
def letter (i : Fin 15) : Char := Char.ofNat (65 + i.val)

/-- Row and column of a hole on the triangular board
`A / B C / D E F / G H I J / K L M N O`, both counted from 1. -/
def coord (i : Fin 15) : Int × Int :=
  match i with
  | 0 => (1, 1)
  | 1 => (2, 1) | 2 => (2, 2)
  | 3 => (3, 1) | 4 => (3, 2) | 5 => (3, 3)
  | 6 => (4, 1) | 7 => (4, 2) | 8 => (4, 3) | 9 => (4, 4)
  | 10 => (5, 1) | 11 => (5, 2) | 12 => (5, 3) | 13 => (5, 4) | 14 => (5, 5)

/-- Holes `i`, `j`, `k` are consecutive along one line of the board with `j`
in the middle: `i` and `k` are in the same row with columns two apart, or in the
same column with rows two apart, or rows and columns are both two apart in the
same direction; and `j` is halfway between them. -/
def Jump (i j k : Fin 15) : Prop :=
  (((coord i).1 = (coord k).1 ∧ ((coord i).2 - (coord k).2).natAbs = 2) ∨
   ((coord i).2 = (coord k).2 ∧ ((coord i).1 - (coord k).1).natAbs = 2) ∨
   ((coord k).1 - (coord i).1 = 2 ∧ (coord k).2 - (coord i).2 = 2) ∨
   ((coord i).1 - (coord k).1 = 2 ∧ (coord i).2 - (coord k).2 = 2)) ∧
  2 * (coord j).1 = (coord i).1 + (coord k).1 ∧
  2 * (coord j).2 = (coord i).2 + (coord k).2

instance (i j k : Fin 15) : Decidable (Jump i j k) := by
  unfold Jump
  infer_instance

/-- The three geometric tests of `isValid` (lines 184-206), on the letters
alone. -/
def geometryOK (frm over dest : Char) : Bool :=
  let fromRow := row frm
  let fromCol := col frm
  let overRow := row over
  let overCol := col over
  let toRow := row dest
  let toCol := col dest
  let isHorizontal : Bool := decide (fromRow = toRow ∧ (fromCol - toCol).natAbs = 2)
  let isVertical : Bool := decide (fromCol = toCol ∧ (fromRow - toRow).natAbs = 2)
  let isDiagonal : Bool :=
    decide ((fromRow - toRow).natAbs = 2 ∧ (fromCol - toCol).natAbs = 2)
  if ¬ (isHorizontal ∨ isVertical ∨ isDiagonal) then false
  else if Int.tdiv (fromRow + toRow) 2 ≠ overRow ∨ Int.tdiv (fromCol + toCol) 2 ≠ overCol
  then false
  else if isDiagonal = true ∧
      ((fromRow - toRow > 0 ∧ fromCol - toCol < 0) ∨
       (fromRow - toRow < 0 ∧ fromCol - toCol > 0)) then false
  else true

/-- Number of holes that hold a peg. -/
def pegsOn (hole : Fin 15 → Char) : Int :=
  ((List.finRange 15).map (fun i => if hole i = 'T' then (1 : Int) else 0)).sum

/-- Every hole holds a peg or is empty, and `invalid` is the `'?'` it starts
as. -/
def WellFormed (s : State) : Prop :=
  (∀ i, s.hole i = 'T' ∨ s.hole i = '.') ∧ s.invalid = '?'

/-- Six accepted moves from the initial board after which no move is left
although eight pegs remain. -/
def stuckMoves : List (Char × Char × Char) :=
  [('D', 'B', 'A'), ('M', 'H', 'D'), ('J', 'I', 'H'), ('G', 'H', 'I'), ('F', 'I', 'M'),
   ('A', 'C', 'F')]

/-- Thirteen accepted moves from the initial board that leave a single
peg. -/
def winningMoves : List (Char × Char × Char) :=
  [('D', 'B', 'A'), ('F', 'E', 'D'), ('A', 'C', 'F'), ('G', 'D', 'B'), ('J', 'F', 'C'),
   ('L', 'H', 'E'), ('M', 'I', 'F'), ('B', 'E', 'I'), ('C', 'F', 'J'), ('O', 'J', 'F'),
   ('F', 'I', 'M'), ('N', 'M', 'L'), ('K', 'L', 'M')]

end PegGame

namespace HalfGammon

/-- A state in which X is to move and every point X could reach with a roll
of 3 is held by two O checkers. -/
def blockedGame : Game where
  Xarray := fun i => if i = 1 then 5 else if i = 3 then 2 else 0
  Oarray := fun i => if i = 4 then 2 else if i = 6 then 2 else if i = 16 then 3 else 0
  Xturn := true
  gameOver := false
  winner := none
  history := []

/-- A board with five X checkers on point 3 and five O checkers on point 14. -/
def stackedX : Arr := fun i => if i = 1 then 2 else if i = 3 then 5 else 0

/-- The O array of the board of `stackedX`. -/
def stackedO : Arr := fun i => if i = 14 then 5 else if i = 16 then 2 else 0

/-! ## Arrays -/

@[simp] theorem Arr.set_same (a : Arr) (i : Fin 18) (v : Int) : (a.set i v) i = v := by
  simp [Arr.set]

theorem Arr.set_other (a : Arr) {i j : Fin 18} (v : Int) (h : j ≠ i) :
    (a.set i v) j = a j := by
  simp [Arr.set, h]

theorem Arr.set_apply (a : Arr) (i j : Fin 18) (v : Int) :
    (a.set i v) j = if j = i then v else a j := rfl

theorem idx_val {d : Int} (h0 : 0 ≤ d) (h1 : d ≤ 17) : ((idx d).val : Int) = d := by
  have h : d.toNat < 18 := by omega
  simp only [idx, Nat.mod_eq_of_lt h]
  omega

theorem idx_ne_zero {d : Int} (h0 : 1 ≤ d) (h1 : d ≤ 16) : idx d ≠ 0 := by
  intro h
  have h2 := @idx_val d (by omega) (by omega)
  rw [h] at h2
  have h3 : (((0 : Fin 18).val : Nat) : Int) = 0 := rfl
  omega

theorem idx_ne_last {d : Int} (h0 : 1 ≤ d) (h1 : d ≤ 16) : idx d ≠ 17 := by
  intro h
  have h2 := @idx_val d (by omega) (by omega)
  rw [h] at h2
  have h3 : (((17 : Fin 18).val : Nat) : Int) = 17 := rfl
  omega

theorem idx_ne_of_ne {d : Int} (s : Fin 18) (h0 : 0 ≤ d) (h1 : d ≤ 17)
    (h : (s.val : Int) ≠ d) : s ≠ idx d := by
  intro e
  apply h
  rw [e]
  exact idx_val h0 h1

theorem countCheckers_unfold (a : Arr) :
    countCheckers a = 0 + a 0 + a 1 + a 2 + a 3 + a 4 + a 5 + a 6 + a 7 + a 8 + a 9 + a 10
      + a 11 + a 12 + a 13 + a 14 + a 15 + a 16 + a 17 := rfl

theorem onPoints_unfold (a : Arr) :
    onPoints a = a 1 + (a 2 + (a 3 + (a 4 + (a 5 + (a 6 + (a 7 + (a 8 + (a 9 + (a 10
      + (a 11 + (a 12 + (a 13 + (a 14 + (a 15 + (a 16 + 0))))))))))))))) := rfl

theorem countCheckers_set (a : Arr) (i : Fin 18) (v : Int) :
    countCheckers (a.set i v) = countCheckers a - a i + v := by
  rw [countCheckers_unfold, countCheckers_unfold]
  fin_cases i <;> simp [Arr.set] <;> ring

theorem countCheckers_split (a : Arr) : countCheckers a = a 0 + onPoints a + a 17 := by
  rw [countCheckers_unfold, onPoints_unfold]
  ring

/-! ## The legality predicates and the two move functions -/

/-- C6.  Blocked destination: a destination point 1..16 holding two or more
opposing checkers is rejected by `validMoveX` (two or more O checkers) and by
`validMoveO` (two or more X checkers), whatever the start and the rest of the
board are. -/
theorem blocked_destination_rejected (start : Fin 18) (dest : Int) (Xarray Oarray : Arr)
    (hd : 1 ≤ dest ∧ dest ≤ 16) :
    (2 ≤ Oarray (idx dest) → validMoveX start dest Xarray Oarray = false) ∧
    (2 ≤ Xarray (idx dest) → validMoveO start dest Xarray Oarray = false) := by
  obtain ⟨h1, h16⟩ := hd
  constructor
  · intro h2
    have ha : ¬ dest > 16 := by omega
    have hb : ¬ (Oarray (idx dest) = 0 ∨ Oarray (idx dest) = 1) := by omega
    have hc : Oarray (idx dest) > 1 := by omega
    simp [validMoveX, ha, hb, hc]
  · intro h2
    have ha : ¬ dest < 1 := by omega
    have hb : ¬ (Xarray (idx dest) = 0 ∨ Xarray (idx dest) = 1) := by omega
    have hc : Xarray (idx dest) > 1 := by omega
    simp [validMoveO, ha, hb, hc]

theorem blocked_destination_rejected_witness :
    validMoveX 1 4 blockedX blockedO = false ∧ validMoveO 16 13 blockedX blockedO = false :=
  ⟨(blocked_destination_rejected 1 4 blockedX blockedO ⟨by decide, by decide⟩).1 (by decide),
   (blocked_destination_rejected 16 13 blockedX blockedO ⟨by decide, by decide⟩).2 (by decide)⟩

/-- C5.  Hit semantics: when `validMoveX` accepts a move from `start` to a
different position `dest` that is a point 1..16 holding exactly one O checker,
`moveX` leaves no O checker on that point, raises the bar of O (index 17) by
exactly 1, lowers the X count at `start` by 1 and raises the X count at `dest`
by 1, so a point without X checkers holds exactly one afterwards; the same for
`moveO` onto a point holding exactly one X checker, with the bar of X at
index 0. -/
theorem hit_semantics (start : Fin 18) (dest : Int) (Xarray Oarray : Arr)
    (hd : 1 ≤ dest ∧ dest ≤ 16) (hne : (start.val : Int) ≠ dest) :
    (validMoveX start dest Xarray Oarray = true → Oarray (idx dest) = 1 →
      (moveX start dest Xarray Oarray).2 (idx dest) = 0 ∧
      (moveX start dest Xarray Oarray).2 17 = Oarray 17 + 1 ∧
      (moveX start dest Xarray Oarray).1 start = Xarray start - 1 ∧
      (moveX start dest Xarray Oarray).1 (idx dest) = Xarray (idx dest) + 1 ∧
      (Xarray (idx dest) = 0 → (moveX start dest Xarray Oarray).1 (idx dest) = 1)) ∧
    (validMoveO start dest Xarray Oarray = true → Xarray (idx dest) = 1 →
      (moveO start dest Xarray Oarray).1 (idx dest) = 0 ∧
      (moveO start dest Xarray Oarray).1 0 = Xarray 0 + 1 ∧
      (moveO start dest Xarray Oarray).2 start = Oarray start - 1 ∧
      (moveO start dest Xarray Oarray).2 (idx dest) = Oarray (idx dest) + 1 ∧
      (Oarray (idx dest) = 0 → (moveO start dest Xarray Oarray).2 (idx dest) = 1)) := by
  obtain ⟨h1, h16⟩ := hd
  have hs : start ≠ idx dest := idx_ne_of_ne start (by omega) (by omega) hne
  have hs2 : idx dest ≠ start := fun e => hs e.symm
  have h0 : idx dest ≠ 0 := idx_ne_zero h1 h16
  have h17 : idx dest ≠ 17 := idx_ne_last h1 h16
  have h0b : (0 : Fin 18) ≠ idx dest := fun e => h0 e.symm
  have h17b : (17 : Fin 18) ≠ idx dest := fun e => h17 e.symm
  constructor
  · intro hv hO
    have ha : ¬ dest > 16 := by omega
    simp only [moveX, ha, hv, hO, if_true, if_false]
    refine ⟨?_, ?_, ?_, ?_, ?_⟩
    · simp [Arr.set_apply, h17]
    · simp [Arr.set_apply, h17b, hO]
    · simp [Arr.set_apply, hs]
    · simp [Arr.set_apply, hs2]
    · intro hx
      simp [Arr.set_apply, hs2, hx]
  · intro hv hX
    have ha : ¬ dest < 1 := by omega
    simp only [moveO, ha, hv, hX, if_true, if_false]
    refine ⟨?_, ?_, ?_, ?_, ?_⟩
    · simp [Arr.set_apply, h0]
    · simp [Arr.set_apply, h0b, hX]
    · simp [Arr.set_apply, hs]
    · simp [Arr.set_apply, hs2]
    · intro ho
      simp [Arr.set_apply, hs2, ho]

theorem hit_semantics_witness :
    (validMoveX 1 4 hitX hitO = true ∧ hitO (idx 4) = 1 ∧
      (moveX 1 4 hitX hitO).2 (idx 4) = 0 ∧
      (moveX 1 4 hitX hitO).2 17 = hitO 17 + 1 ∧
      (moveX 1 4 hitX hitO).1 1 = hitX 1 - 1 ∧
      (moveX 1 4 hitX hitO).1 (idx 4) = hitX (idx 4) + 1) ∧
    (validMoveO 16 13 hitX hitO = true ∧ hitX (idx 13) = 1 ∧
      (moveO 16 13 hitX hitO).1 (idx 13) = 0 ∧
      (moveO 16 13 hitX hitO).1 0 = hitX 0 + 1) :=
  have hx := (hit_semantics 1 4 hitX hitO ⟨by decide, by decide⟩ (by decide)).1
    (by decide) (by decide)
  have ho := (hit_semantics 16 13 hitX hitO ⟨by decide, by decide⟩ (by decide)).2
    (by decide) (by decide)
  ⟨⟨by decide, by decide, hx.1, hx.2.1, hx.2.2.1, hx.2.2.2.1⟩,
   ⟨by decide, by decide, ho.1, ho.2.1⟩⟩

theorem afterMove_history (g : Game) (m : Applied) (XO : Arr × Arr) :
    (afterMove g m XO).history = m :: g.history := by
  simp only [afterMove]
  split_ifs <;> rfl

theorem afterMove_Xarray (g : Game) (m : Applied) (XO : Arr × Arr) :
    (afterMove g m XO).Xarray = XO.1 := by
  simp only [afterMove]
  split_ifs <;> rfl

theorem afterMove_Oarray (g : Game) (m : Applied) (XO : Arr × Arr) :
    (afterMove g m XO).Oarray = XO.2 := by
  simp only [afterMove]
  split_ifs <;> rfl

theorem borneOff_afterMove (s : Side) (g : Game) (m : Applied) (XO : Arr × Arr) :
    borneOff s (afterMove g m XO) =
      borneOff s g + (if m.side = s ∧ m.isBearOff = true then 1 else 0) := by
  simp only [borneOff, afterMove_history, List.filter_cons]
  by_cases h : m.side = s ∧ m.isBearOff = true
  · simp [h]
  · rw [if_neg h]
    have h2 : (decide (m.side = s) && m.isBearOff) = false := by
      by_cases h3 : m.side = s
      · simp [h3] at h ⊢
        exact h
      · simp [h3]
    simp [h2]

/-- C9.  Bearing-off effect: an accepted move whose destination is off the
board (`dest > 16` for `moveX`, `dest < 1` for `moveO`) takes exactly one of the
mover's checkers from `start`, changes no other entry of the mover's array and
no entry of the opponent's array; the mover's checker total drops by exactly 1
and, once `main` has recorded the move, the mover's borne-off count is exactly
1 higher. -/
theorem bearing_off_effect (start : Fin 18) (dest : Int) (Xarray Oarray : Arr) :
    (validMoveX start dest Xarray Oarray = true → dest > 16 →
      (moveX start dest Xarray Oarray).1 start = Xarray start - 1 ∧
      (∀ j, j ≠ start → (moveX start dest Xarray Oarray).1 j = Xarray j) ∧
      (moveX start dest Xarray Oarray).2 = Oarray ∧
      countCheckers (moveX start dest Xarray Oarray).1 = countCheckers Xarray - 1 ∧
      ∀ g : Game, borneOff Side.X (afterMove g ⟨Side.X, start, dest⟩
        (moveX start dest Xarray Oarray)) = borneOff Side.X g + 1) ∧
    (validMoveO start dest Xarray Oarray = true → dest < 1 →
      (moveO start dest Xarray Oarray).2 start = Oarray start - 1 ∧
      (∀ j, j ≠ start → (moveO start dest Xarray Oarray).2 j = Oarray j) ∧
      (moveO start dest Xarray Oarray).1 = Xarray ∧
      countCheckers (moveO start dest Xarray Oarray).2 = countCheckers Oarray - 1 ∧
      ∀ g : Game, borneOff Side.O (afterMove g ⟨Side.O, start, dest⟩
        (moveO start dest Xarray Oarray)) = borneOff Side.O g + 1) := by
  constructor
  · intro _ hd
    simp only [moveX, hd, if_true]
    refine ⟨by simp, ?_, trivial, ?_, ?_⟩
    · intro j hj
      simp [Arr.set_apply, hj]
    · rw [countCheckers_set]; ring
    · intro g
      rw [borneOff_afterMove]
      simp [Applied.isBearOff, hd]
  · intro _ hd
    simp only [moveO, hd, if_true]
    refine ⟨by simp, ?_, trivial, ?_, ?_⟩
    · intro j hj
      simp [Arr.set_apply, hj]
    · rw [countCheckers_set]; ring
    · intro g
      rw [borneOff_afterMove]
      simp [Applied.isBearOff, hd]

theorem bearing_off_effect_witness :
    (validMoveX 13 17 hitX hitO = true ∧ (17 : Int) > 16 ∧
      (moveX 13 17 hitX hitO).1 13 = hitX 13 - 1 ∧
      (moveX 13 17 hitX hitO).2 = hitO ∧
      countCheckers (moveX 13 17 hitX hitO).1 = countCheckers hitX - 1) ∧
    (validMoveO 4 0 hitX hitO = true ∧ (0 : Int) < 1 ∧
      (moveO 4 0 hitX hitO).2 4 = hitO 4 - 1 ∧
      (moveO 4 0 hitX hitO).1 = hitX ∧
      countCheckers (moveO 4 0 hitX hitO).2 = countCheckers hitO - 1) :=
  have hx := (bearing_off_effect 13 17 hitX hitO).1 (by decide) (by decide)
  have ho := (bearing_off_effect 4 0 hitX hitO).2 (by decide) (by decide)
  ⟨⟨by decide, by decide, hx.1, hx.2.2.1, hx.2.2.2.1⟩,
   ⟨by decide, by decide, ho.1, ho.2.2.1, ho.2.2.2.1⟩⟩

/-! ## What an accepted move does to the board -/

theorem validMoveX_start {start : Fin 18} {dest : Int} {Xarray Oarray : Arr}
    (hv : validMoveX start dest Xarray Oarray = true) : Xarray start ≠ 0 := by
  intro e
  simp [validMoveX, e] at hv

theorem validMoveO_start {start : Fin 18} {dest : Int} {Xarray Oarray : Arr}
    (hv : validMoveO start dest Xarray Oarray = true) : Oarray start ≠ 0 := by
  intro e
  simp [validMoveO, e] at hv

theorem validMoveX_onBoard {start : Fin 18} {dest : Int} {Xarray Oarray : Arr}
    (hv : validMoveX start dest Xarray Oarray = true) (hb : ¬ dest > 16) :
    1 ≤ dest ∧ dest ≤ 16 ∧ Oarray (idx dest) ≤ 1 := by
  have hs := validMoveX_start hv
  by_cases hr : dest ≥ 1 ∧ dest ≤ 16
  · refine ⟨hr.1, hr.2, ?_⟩
    by_contra hc
    have h1 : ¬ (Oarray (idx dest) = 0 ∨ Oarray (idx dest) = 1) := by omega
    have h2 : Oarray (idx dest) > 1 := by omega
    simp [validMoveX, hs, hb, hr, h1, h2] at hv
  · simp [validMoveX, hs, hb, hr] at hv

theorem validMoveO_onBoard {start : Fin 18} {dest : Int} {Xarray Oarray : Arr}
    (hv : validMoveO start dest Xarray Oarray = true) (hb : ¬ dest < 1) :
    1 ≤ dest ∧ dest ≤ 16 ∧ Xarray (idx dest) ≤ 1 := by
  have hs := validMoveO_start hv
  by_cases hr : dest ≥ 1 ∧ dest ≤ 16
  · refine ⟨hr.1, hr.2, ?_⟩
    by_contra hc
    have h1 : ¬ (Xarray (idx dest) = 0 ∨ Xarray (idx dest) = 1) := by omega
    have h2 : Xarray (idx dest) > 1 := by omega
    simp [validMoveO, hs, hb, hr, h1, h2] at hv
  · simp [validMoveO, hs, hb, hr] at hv

theorem moveX_countO (start : Fin 18) (dest : Int) (Xarray Oarray : Arr) :
    countCheckers (moveX start dest Xarray Oarray).2 = countCheckers Oarray := by
  simp only [moveX]
  split_ifs
  · rfl
  · simp only [countCheckers_set, Arr.set_apply]
    split_ifs <;> ring
  · rfl
  · rfl

theorem moveO_countX (start : Fin 18) (dest : Int) (Xarray Oarray : Arr) :
    countCheckers (moveO start dest Xarray Oarray).1 = countCheckers Xarray := by
  simp only [moveO]
  split_ifs
  · rfl
  · simp only [countCheckers_set, Arr.set_apply]
    split_ifs <;> ring
  · rfl
  · rfl

theorem moveX_countX {start : Fin 18} {dest : Int} {Xarray Oarray : Arr}
    (hv : validMoveX start dest Xarray Oarray = true) :
    countCheckers (moveX start dest Xarray Oarray).1 =
      countCheckers Xarray - (if dest > 16 then 1 else 0) := by
  simp only [moveX, hv, if_true]
  split_ifs
  · simp only [countCheckers_set]; ring
  · simp only [countCheckers_set, Arr.set_apply]
    split_ifs <;> ring
  · simp only [countCheckers_set, Arr.set_apply]
    split_ifs <;> ring

theorem moveO_countO {start : Fin 18} {dest : Int} {Xarray Oarray : Arr}
    (hv : validMoveO start dest Xarray Oarray = true) :
    countCheckers (moveO start dest Xarray Oarray).2 =
      countCheckers Oarray - (if dest < 1 then 1 else 0) := by
  simp only [moveO, hv, if_true]
  split_ifs
  · simp only [countCheckers_set]; ring
  · simp only [countCheckers_set, Arr.set_apply]
    split_ifs <;> ring
  · simp only [countCheckers_set, Arr.set_apply]
    split_ifs <;> ring

theorem moveX_boardOK {start : Fin 18} {dest : Int} {Xarray Oarray : Arr}
    (h : BoardOK Xarray Oarray) (hv : validMoveX start dest Xarray Oarray = true)
    (hs : start ≠ 17) :
    BoardOK (moveX start dest Xarray Oarray).1 (moveX start dest Xarray Oarray).2 := by
  have hst := validMoveX_start hv
  have n1 := h.nonnegX start
  have e1 := h.excl start
  have l1 := h.lastX
  have f1 := h.firstO
  have n17 := h.nonnegO 17
  by_cases hb : dest > 16
  · simp only [moveX, hb, if_true]
    refine ⟨fun i => ?_, h.nonnegO, ?_, h.firstO, fun i => ?_⟩
    · have := h.nonnegX i
      simp only [Arr.set_apply]
      split_ifs <;> omega
    · simp only [Arr.set_apply]
      split_ifs with c
      · exact absurd c.symm hs
      · exact l1
    · have := h.excl i
      simp only [Arr.set_apply]
      split_ifs with c
      · subst c; omega
      · exact this
  · obtain ⟨d1, d16, hO⟩ := validMoveX_onBoard hv hb
    have k0 : idx dest ≠ 0 := idx_ne_zero d1 d16
    have k17 : idx dest ≠ 17 := idx_ne_last d1 d16
    have n2 := h.nonnegX (idx dest)
    have n3 := h.nonnegO (idx dest)
    have e2 := h.excl (idx dest)
    simp only [moveX, hb, hv, if_true, if_false]
    generalize idx dest = d at *
    split_ifs with hit
    · have sd : start ≠ d := by
        intro e; subst e; omega
      refine ⟨fun i => ?_, fun i => ?_, ?_, ?_, fun i => ?_⟩
      · have := h.nonnegX i
        simp only [Arr.set_apply]
        split_ifs <;> (try subst_vars) <;> omega
      · have := h.nonnegO i
        simp only [Arr.set_apply]
        split_ifs <;> (try subst_vars) <;> omega
      · simp [Arr.set_apply, Ne.symm hs, Ne.symm k17, l1]
      · simp [Arr.set_apply, Ne.symm k0, f1]
      · have := h.excl i
        have := h.nonnegO i
        simp only [Arr.set_apply]
        by_cases c1 : i = start
        · subst c1
          simp only [if_true, sd, if_false]
          by_cases c2 : i = 17
          · exact absurd c2 hs
          · simp only [c2, if_false]; omega
        · by_cases c2 : i = d
          · subst c2
            simp only [c1, if_false, if_true, k17]; omega
          · simp only [c1, c2, if_false]
            by_cases c3 : i = 17
            · subst c3; left; exact l1
            · simp only [c3, if_false]; exact h.excl i
    · have hO0 : Oarray d = 0 := by omega
      refine ⟨fun i => ?_, h.nonnegO, ?_, h.firstO, fun i => ?_⟩
      · have := h.nonnegX i
        simp only [Arr.set_apply]
        split_ifs <;> (try subst_vars) <;> omega
      · simp [Arr.set_apply, Ne.symm hs, Ne.symm k17, l1]
      · have := h.excl i
        simp only [Arr.set_apply]
        by_cases c2 : i = d
        · subst c2; right; exact hO0
        · simp only [c2, if_false]
          by_cases c1 : i = start
          · subst c1; right; omega
          · simp only [c1, if_false]; exact this

theorem moveO_boardOK {start : Fin 18} {dest : Int} {Xarray Oarray : Arr}
    (h : BoardOK Xarray Oarray) (hv : validMoveO start dest Xarray Oarray = true)
    (hs : start ≠ 0) :
    BoardOK (moveO start dest Xarray Oarray).1 (moveO start dest Xarray Oarray).2 := by
  have hst := validMoveO_start hv
  have n1 := h.nonnegO start
  have e1 := h.excl start
  have l1 := h.lastX
  have f1 := h.firstO
  have n0 := h.nonnegX 0
  by_cases hb : dest < 1
  · simp only [moveO, hb, if_true]
    refine ⟨h.nonnegX, fun i => ?_, h.lastX, ?_, fun i => ?_⟩
    · have := h.nonnegO i
      simp only [Arr.set_apply]
      split_ifs <;> omega
    · simp [Arr.set_apply, Ne.symm hs, f1]
    · have := h.excl i
      simp only [Arr.set_apply]
      split_ifs with c
      · subst c; omega
      · exact this
  · obtain ⟨d1, d16, hX⟩ := validMoveO_onBoard hv hb
    have k0 : idx dest ≠ 0 := idx_ne_zero d1 d16
    have k17 : idx dest ≠ 17 := idx_ne_last d1 d16
    have n2 := h.nonnegX (idx dest)
    have n3 := h.nonnegO (idx dest)
    have e2 := h.excl (idx dest)
    simp only [moveO, hb, hv, if_true, if_false]
    generalize idx dest = d at *
    split_ifs with hit
    · have sd : start ≠ d := by
        intro e; subst e; omega
      refine ⟨fun i => ?_, fun i => ?_, ?_, ?_, fun i => ?_⟩
      · have := h.nonnegX i
        simp only [Arr.set_apply]
        split_ifs <;> (try subst_vars) <;> omega
      · have := h.nonnegO i
        simp only [Arr.set_apply]
        split_ifs <;> (try subst_vars) <;> omega
      · simp [Arr.set_apply, Ne.symm k17, l1]
      · simp [Arr.set_apply, Ne.symm hs, Ne.symm k0, f1]
      · have := h.excl i
        have := h.nonnegX i
        simp only [Arr.set_apply]
        by_cases c1 : i = start
        · subst c1
          simp only [if_true, sd, if_false]
          by_cases c2 : i = 0
          · exact absurd c2 hs
          · simp only [c2, if_false]; omega
        · by_cases c2 : i = d
          · subst c2
            simp only [c1, if_false, if_true, k0]; omega
          · simp only [c1, c2, if_false]
            by_cases c3 : i = 0
            · subst c3; right; exact f1
            · simp only [c3, if_false]; exact h.excl i
    · have hX0 : Xarray d = 0 := by omega
      refine ⟨h.nonnegX, fun i => ?_, h.lastX, ?_, fun i => ?_⟩
      · have := h.nonnegO i
        simp only [Arr.set_apply]
        split_ifs <;> (try subst_vars) <;> omega
      · simp [Arr.set_apply, Ne.symm hs, Ne.symm k0, f1]
      · have := h.excl i
        simp only [Arr.set_apply]
        by_cases c2 : i = d
        · subst c2; left; exact hX0
        · simp only [c2, if_false]
          by_cases c1 : i = start
          · subst c1; left; omega
          · simp only [c1, if_false]; exact this

/-! ## One iteration of the game loop -/

theorem selectMove_next {g g1 : Game} {roll : Int} :
    ∀ inputs : List Int, selectMove g roll inputs = TurnResult.next g1 →
    ∃ s : Int, 1 ≤ s ∧ s ≤ 16 ∧ s ∈ inputs ∧ FreeMove g roll s g1 := by
  intro inputs
  induction inputs with
  | nil => intro h; simp [selectMove] at h
  | cons s rest ih =>
    intro h
    have lift : (∃ t : Int, 1 ≤ t ∧ t ≤ 16 ∧ t ∈ rest ∧ FreeMove g roll t g1) →
        ∃ t : Int, 1 ≤ t ∧ t ≤ 16 ∧ t ∈ s :: rest ∧ FreeMove g roll t g1 := by
      rintro ⟨t, a, b, c, d⟩
      exact ⟨t, a, b, List.mem_cons_of_mem _ c, d⟩
    by_cases c1 : s = -1 ∨ (s ≥ 1 ∧ s ≤ 16)
    · by_cases c2 : s = -1
      · simp [selectMove, c2] at h
      · have hs : 1 ≤ s ∧ s ≤ 16 := by omega
        cases hx : g.Xturn
        · by_cases hv : validMoveO (idx s) (s - roll) g.Xarray g.Oarray = true
          · simp [selectMove, c2, hs, hx, hv] at h
            exact ⟨s, hs.1, hs.2, List.mem_cons_self _ _, Or.inr ⟨hx, hv, h.symm⟩⟩
          · simp [selectMove, c2, hs, hx, hv] at h
            exact lift (ih h)
        · by_cases hv : validMoveX (idx s) (s + roll) g.Xarray g.Oarray = true
          · simp [selectMove, c2, hs, hx, hv] at h
            exact ⟨s, hs.1, hs.2, List.mem_cons_self _ _, Or.inl ⟨hx, hv, h.symm⟩⟩
          · simp [selectMove, c2, hs, hx, hv] at h
            exact lift (ih h)
    · simp only [selectMove, c1, if_false] at h
      exact lift (ih h)

theorem turn_next {g g1 : Game} {roll : Int} {inputs : List Int}
    (h : turn g roll inputs = TurnResult.next g1) :
    (movePossible g.Xturn roll g.Xarray g.Oarray = false ∧
      g1 = { g with Xturn := ! g.Xturn }) ∨
    (movePossible g.Xturn roll g.Xarray g.Oarray = true ∧
      mustMove g.Xturn g.Xarray g.Oarray = true ∧ g.Xturn = true ∧
      validMoveX 0 roll g.Xarray g.Oarray = true ∧
      g1 = afterMove g ⟨Side.X, 0, roll⟩ (moveX 0 roll g.Xarray g.Oarray)) ∨
    (movePossible g.Xturn roll g.Xarray g.Oarray = true ∧
      mustMove g.Xturn g.Xarray g.Oarray = true ∧ g.Xturn = false ∧
      validMoveO 17 (17 - roll) g.Xarray g.Oarray = true ∧
      g1 = afterMove g ⟨Side.O, 17, 17 - roll⟩ (moveO 17 (17 - roll) g.Xarray g.Oarray)) ∨
    (movePossible g.Xturn roll g.Xarray g.Oarray = true ∧
      mustMove g.Xturn g.Xarray g.Oarray = false ∧
      ∃ s : Int, 1 ≤ s ∧ s ≤ 16 ∧ s ∈ inputs ∧ FreeMove g roll s g1) := by
  by_cases hp : movePossible g.Xturn roll g.Xarray g.Oarray = true
  · by_cases hm : mustMove g.Xturn g.Xarray g.Oarray = true
    · cases hx : g.Xturn
      · by_cases hv : validMoveO 17 (17 - roll) g.Xarray g.Oarray = true
        · simp only [hx] at hp hm
          simp [turn, hp, hm, hx, hv] at h
          exact Or.inr (Or.inr (Or.inl ⟨hp, hm, rfl, hv, h.symm⟩))
        · simp only [hx] at hp hm
          simp [turn, hp, hm, hx, hv] at h
      · by_cases hv : validMoveX 0 roll g.Xarray g.Oarray = true
        · simp only [hx] at hp hm
          simp [turn, hp, hm, hx, hv] at h
          exact Or.inr (Or.inl ⟨hp, hm, rfl, hv, h.symm⟩)
        · simp only [hx] at hp hm
          simp [turn, hp, hm, hx, hv] at h
    · have hm2 : mustMove g.Xturn g.Xarray g.Oarray = false := by simpa using hm
      simp only [turn, hp, hm2] at h
      simp at h
      exact Or.inr (Or.inr (Or.inr ⟨hp, hm2, selectMove_next inputs h⟩))
  · have hp2 : movePossible g.Xturn roll g.Xarray g.Oarray = false := by simpa using hp
    simp only [turn, hp2] at h
    simp at h
    exact Or.inl ⟨hp2, h.symm⟩

theorem afterMoveX_inv {g : Game} {start : Fin 18} {dest : Int} (hi : Inv g)
    (hg : g.gameOver = false) (hv : validMoveX start dest g.Xarray g.Oarray = true)
    (hs : start ≠ 17) :
    Inv (afterMove g ⟨Side.X, start, dest⟩ (moveX start dest g.Xarray g.Oarray)) := by
  have hb := moveX_boardOK hi.board hv hs
  have cX := moveX_countX hv
  have cO := moveX_countO start dest g.Xarray g.Oarray
  have bX := borneOff_afterMove Side.X g ⟨Side.X, start, dest⟩
    (moveX start dest g.Xarray g.Oarray)
  have bO := borneOff_afterMove Side.O g ⟨Side.X, start, dest⟩
    (moveX start dest g.Xarray g.Oarray)
  simp [Applied.isBearOff] at bX bO
  obtain ⟨rX, rO, _⟩ := hi.running hg
  have tX := hi.totalX
  have tO := hi.totalO
  refine ⟨?_, ?_, ?_, ?_, ?_⟩
  · rw [afterMove_Xarray, afterMove_Oarray]; exact hb
  · rw [afterMove_Xarray, bX, cX]; split_ifs <;> omega
  · rw [afterMove_Oarray, bO, cO]; omega
  · rw [afterMove_Xarray, afterMove_Oarray]
    intro hgo
    by_cases z1 : countCheckers (moveX start dest g.Xarray g.Oarray).1 = 0
    · simp [afterMove, z1] at hgo
    · by_cases z2 : countCheckers (moveX start dest g.Xarray g.Oarray).2 = 0
      · simp [afterMove, z1, z2] at hgo
      · refine ⟨z1, z2, ?_⟩
        simp [afterMove, z1, z2]
  · rw [afterMove_Xarray, afterMove_Oarray]
    intro _
    by_cases z1 : countCheckers (moveX start dest g.Xarray g.Oarray).1 = 0
    · left
      refine ⟨?_, z1, by omega⟩
      simp [afterMove, z1]
    · by_cases z2 : countCheckers (moveX start dest g.Xarray g.Oarray).2 = 0
      · omega
      · exfalso
        rename_i hgo
        simp [afterMove, z1, z2] at hgo

theorem afterMoveO_inv {g : Game} {start : Fin 18} {dest : Int} (hi : Inv g)
    (hg : g.gameOver = false) (hv : validMoveO start dest g.Xarray g.Oarray = true)
    (hs : start ≠ 0) :
    Inv (afterMove g ⟨Side.O, start, dest⟩ (moveO start dest g.Xarray g.Oarray)) := by
  have hb := moveO_boardOK hi.board hv hs
  have cO := moveO_countO hv
  have cX := moveO_countX start dest g.Xarray g.Oarray
  have bX := borneOff_afterMove Side.X g ⟨Side.O, start, dest⟩
    (moveO start dest g.Xarray g.Oarray)
  have bO := borneOff_afterMove Side.O g ⟨Side.O, start, dest⟩
    (moveO start dest g.Xarray g.Oarray)
  simp [Applied.isBearOff] at bX bO
  obtain ⟨rX, rO, _⟩ := hi.running hg
  have tX := hi.totalX
  have tO := hi.totalO
  refine ⟨?_, ?_, ?_, ?_, ?_⟩
  · rw [afterMove_Xarray, afterMove_Oarray]; exact hb
  · rw [afterMove_Xarray, bX, cX]; omega
  · rw [afterMove_Oarray, bO, cO]; split_ifs <;> omega
  · rw [afterMove_Xarray, afterMove_Oarray]
    intro hgo
    by_cases z1 : countCheckers (moveO start dest g.Xarray g.Oarray).1 = 0
    · simp [afterMove, z1] at hgo
    · by_cases z2 : countCheckers (moveO start dest g.Xarray g.Oarray).2 = 0
      · simp [afterMove, z1, z2] at hgo
      · refine ⟨z1, z2, ?_⟩
        simp [afterMove, z1, z2]
  · rw [afterMove_Xarray, afterMove_Oarray]
    intro hgo
    by_cases z1 : countCheckers (moveO start dest g.Xarray g.Oarray).1 = 0
    · omega
    · by_cases z2 : countCheckers (moveO start dest g.Xarray g.Oarray).2 = 0
      · right
        refine ⟨?_, z2, z1⟩
        simp [afterMove, z1, z2]
      · exfalso
        simp [afterMove, z1, z2] at hgo

/-! ## Reachable states -/

theorem initial_inv : Inv initial := by
  refine ⟨⟨?_, ?_, ?_, ?_, ?_⟩, ?_, ?_, ?_, ?_⟩
  · decide
  · decide
  · decide
  · decide
  · decide
  · decide
  · decide
  · intro _; decide
  · intro h; exact absurd h (by decide)

theorem turn_inv {g g1 : Game} {roll : Int} {inputs : List Int} (hi : Inv g)
    (hg : g.gameOver = false) (h : turn g roll inputs = TurnResult.next g1) : Inv g1 := by
  rcases turn_next h with ⟨_, e⟩ | ⟨_, _, _, hv, e⟩ | ⟨_, _, _, hv, e⟩ | ⟨_, _, s, s1, s16, _, hf⟩
  · subst e
    exact ⟨hi.board, hi.totalX, hi.totalO, hi.running, hi.over⟩
  · subst e
    exact afterMoveX_inv hi hg hv (by decide)
  · subst e
    exact afterMoveO_inv hi hg hv (by decide)
  · rcases hf with ⟨_, hv, e⟩ | ⟨_, hv, e⟩
    · subst e
      exact afterMoveX_inv hi hg hv (idx_ne_last s1 s16)
    · subst e
      exact afterMoveO_inv hi hg hv (idx_ne_zero s1 s16)

theorem reachable_inv {g : Game} (h : Reachable g) : Inv g := by
  induction h with
  | start => exact initial_inv
  | step roll inputs _ hg _ _ ht ih => exact turn_inv ih hg ht

theorem reachable_play {g : Game} (script : List (Int × List Int)) :
    ∀ g0 : Game, Reachable g0 → play g0 script = some g → Reachable g := by
  induction script with
  | nil =>
    intro g0 h0 hp
    simp [play] at hp
    subst hp
    exact h0
  | cons head rest ih =>
    intro g0 h0 hp
    obtain ⟨roll, inputs⟩ := head
    by_cases c : g0.gameOver = false ∧ 1 ≤ roll ∧ roll ≤ 6
    · simp only [play, c, and_self, if_true] at hp
      cases ht : turn g0 roll inputs with
      | next g1 =>
        simp only [ht] at hp
        exact ih g1 (Reachable.step roll inputs h0 c.1 c.2.1 c.2.2 ht) hp
      | quit => simp [ht] at hp
      | looping => simp [ht] at hp
    · simp [play, c] at hp

theorem reachable_playD (script : List (Int × List Int)) {g0 : Game} (h0 : Reachable g0) :
    Reachable (playD g0 script) := by
  unfold playD
  cases hp : play g0 script with
  | none => simpa using h0
  | some g => simpa using reachable_play script g0 h0 hp

/-! ## Invariants of play -/

/-- C1 as stated fails.  On the starting board, which is reachable, X has no
checker on the bar, has borne off none and has 7 checkers on the points, so the
total is 7 and not 15. -/
theorem starting_total_is_not_fifteen :
    Reachable initial ∧
    initial.Xarray 0 + borneOff Side.X initial + onPoints initial.Xarray = 7 ∧
    initial.Xarray 0 + borneOff Side.X initial + onPoints initial.Xarray ≠ 15 ∧
    initial.Oarray 17 + borneOff Side.O initial + onPoints initial.Oarray ≠ 15 :=
  ⟨Reachable.start, by decide, by decide, by decide⟩

/-- C1, amended.  Checker conservation with the 7 checkers a side starts with:
in every reachable state, for each side, the bar count (index 0 for X, index 17
for O) plus the number of checkers borne off plus the sum of the counts on the
points 1..16 equals 7. -/
theorem checker_conservation (g : Game) (h : Reachable g) :
    g.Xarray 0 + borneOff Side.X g + onPoints g.Xarray = 7 ∧
    g.Oarray 17 + borneOff Side.O g + onPoints g.Oarray = 7 := by
  have hi := reachable_inv h
  have tX := hi.totalX
  have tO := hi.totalO
  rw [countCheckers_split] at tX tO
  have l := hi.board.lastX
  have f := hi.board.firstO
  constructor <;> omega

theorem checker_conservation_witness :
    Reachable (playD initial hitScript) ∧
    (playD initial hitScript).Xarray 0 = 1 ∧
    (playD initial hitScript).Xarray 0 + borneOff Side.X (playD initial hitScript)
      + onPoints (playD initial hitScript).Xarray = 7 ∧
    (playD initial hitScript).Oarray 17 + borneOff Side.O (playD initial hitScript)
      + onPoints (playD initial hitScript).Oarray = 7 :=
  ⟨reachable_playD hitScript Reachable.start, by decide,
   checker_conservation (playD initial hitScript) (reachable_playD hitScript Reachable.start)⟩

/-- C2, evaluated on the code.  After seven iterations of `stackScript` (rolls
of 2, X playing 1 -> 3 four times) the reachable board holds 6 X checkers on
point 3, and after the eighth it also holds 6 O checkers on point 14: the cap of
5 is exceeded. -/
theorem stacking_cap_exceeded :
    Reachable (playD initial stackScript) ∧
    (playD initial stackScript).Xarray 3 = 6 ∧
    (playD initial stackScript).Oarray 14 = 6 :=
  ⟨reachable_playD stackScript Reachable.start, by decide, by decide⟩

/-- C3.  Point exclusivity: in the starting state and after every iteration of
the game loop, hence after every completed move, no point 1..16 holds checkers
of both sides. -/
theorem point_exclusivity (g : Game) (h : Reachable g) :
    ∀ p : Fin 18, 1 ≤ p.val → p.val ≤ 16 → ¬ (g.Xarray p > 0 ∧ g.Oarray p > 0) := by
  intro p _ _ hp
  have e := (reachable_inv h).board.excl p
  omega

theorem point_exclusivity_witness :
    Reachable (playD initial hitScript) ∧
    (playD initial hitScript).Oarray 9 = 1 ∧
    ∀ p : Fin 18, 1 ≤ p.val → p.val ≤ 16 →
      ¬ ((playD initial hitScript).Xarray p > 0 ∧ (playD initial hitScript).Oarray p > 0) :=
  ⟨reachable_playD hitScript Reachable.start, by decide,
   point_exclusivity (playD initial hitScript) (reachable_playD hitScript Reachable.start)⟩

/-- C7, evaluated on the code.  After six iterations of `stackScript` point 3
holds 5 X checkers and point 14 holds 5 O checkers, both sides still have
checkers on their starts 1 and 16, and yet `validMoveX 1 3` and
`validMoveO 16 14` accept a sixth checker onto those points. -/
theorem own_stack_of_five_accepted :
    Reachable (playD initial stackScript6) ∧
    (playD initial stackScript6).Xarray 3 = 5 ∧
    (playD initial stackScript6).Xarray 1 = 2 ∧
    validMoveX 1 3 (playD initial stackScript6).Xarray (playD initial stackScript6).Oarray
      = true ∧
    (playD initial stackScript6).Oarray 14 = 5 ∧
    (playD initial stackScript6).Oarray 16 = 2 ∧
    validMoveO 16 14 (playD initial stackScript6).Xarray (playD initial stackScript6).Oarray
      = true :=
  ⟨reachable_playD stackScript6 Reachable.start, by decide, by decide, by decide, by decide,
   by decide, by decide⟩

/-- C8, evaluated on the code.  On the starting board neither side has a
checker on point 2, so `validMoveX 2 17` and `validMoveO 2 0` reject the
bearing-off move; `moveX 2 17` and `moveO 2 0` nevertheless decrement the empty
entry to -1. -/
theorem rejected_bear_off_changes_board :
    validMoveX 2 17 initial.Xarray initial.Oarray = false ∧
    (moveX 2 17 initial.Xarray initial.Oarray).1 2 = -1 ∧
    (moveX 2 17 initial.Xarray initial.Oarray).1 ≠ initial.Xarray ∧
    validMoveO 2 0 initial.Xarray initial.Oarray = false ∧
    (moveO 2 0 initial.Xarray initial.Oarray).2 2 = -1 ∧
    (moveO 2 0 initial.Xarray initial.Oarray).2 ≠ initial.Oarray :=
  ⟨by decide, by decide, by decide, by decide, by decide, by decide⟩

/-- What does hold of a rejected move: when the destination is not off the
board (`dest <= 16` for `moveX`, `dest >= 1` for `moveO`) the two arrays are
left as they were. -/
theorem rejected_on_board_unchanged (start : Fin 18) (dest : Int) (Xarray Oarray : Arr) :
    (validMoveX start dest Xarray Oarray = false → dest ≤ 16 →
      moveX start dest Xarray Oarray = (Xarray, Oarray)) ∧
    (validMoveO start dest Xarray Oarray = false → 1 ≤ dest →
      moveO start dest Xarray Oarray = (Xarray, Oarray)) := by
  constructor
  · intro hv hd
    have hb : ¬ dest > 16 := by omega
    simp [moveX, hv, hb]
  · intro hv hd
    have hb : ¬ dest < 1 := by omega
    simp [moveO, hv, hb]

theorem countCheckers_eq_zero {a : Arr} (hn : ∀ i, 0 ≤ a i) :
    countCheckers a = 0 ↔ ∀ i, a i = 0 := by
  rw [countCheckers_unfold]
  constructor
  · intro h
    have h0 := hn 0
    have h1 := hn 1
    have h2 := hn 2
    have h3 := hn 3
    have h4 := hn 4
    have h5 := hn 5
    have h6 := hn 6
    have h7 := hn 7
    have h8 := hn 8
    have h9 := hn 9
    have h10 := hn 10
    have h11 := hn 11
    have h12 := hn 12
    have h13 := hn 13
    have h14 := hn 14
    have h15 := hn 15
    have h16 := hn 16
    have h17 := hn 17
    have z0 : a 0 = 0 := by omega
    have z1 : a 1 = 0 := by omega
    have z2 : a 2 = 0 := by omega
    have z3 : a 3 = 0 := by omega
    have z4 : a 4 = 0 := by omega
    have z5 : a 5 = 0 := by omega
    have z6 : a 6 = 0 := by omega
    have z7 : a 7 = 0 := by omega
    have z8 : a 8 = 0 := by omega
    have z9 : a 9 = 0 := by omega
    have z10 : a 10 = 0 := by omega
    have z11 : a 11 = 0 := by omega
    have z12 : a 12 = 0 := by omega
    have z13 : a 13 = 0 := by omega
    have z14 : a 14 = 0 := by omega
    have z15 : a 15 = 0 := by omega
    have z16 : a 16 = 0 := by omega
    have z17 : a 17 = 0 := by omega
    intro i
    fin_cases i <;> assumption
  · intro h
    simp [h]

/-- C4 as stated fails.  After `hitScript` X has a checker on the bar, and
`validMoveX` still accepts the move from point 1 to point 4: the predicate does
not look at the bar. -/
theorem bar_checker_other_start_accepted :
    Reachable (playD initial hitScript) ∧
    (playD initial hitScript).Xarray 0 > 0 ∧
    (1 : Fin 18) ≠ 0 ∧
    validMoveX 1 4 (playD initial hitScript).Xarray (playD initial hitScript).Oarray = true :=
  ⟨reachable_playD hitScript Reachable.start, by decide, by decide, by decide⟩

/-- C4, amended.  Forced reentry is enforced by the game loop, not by
`validMoveX` / `validMoveO`: in an iteration that the side to move begins with a
checker on its bar, the only legality question asked is the one for the move
from the bar (`validMoveX 0 roll` for X, `validMoveO 17 (17 - roll)` for O), what
the player types plays no part, and the only move the iteration can add to the
record is that move from the bar. -/
theorem forced_reentry_in_turn (g : Game) (roll : Int) (inputs : List Int) :
    (g.Xturn = true → g.Xarray 0 > 0 →
      movePossible g.Xturn roll g.Xarray g.Oarray = validMoveX 0 roll g.Xarray g.Oarray ∧
      turn g roll inputs = turn g roll [] ∧
      ∀ g1, turn g roll inputs = TurnResult.next g1 →
        g1.history = g.history ∨ g1.history = ⟨Side.X, 0, roll⟩ :: g.history) ∧
    (g.Xturn = false → g.Oarray 17 > 0 →
      movePossible g.Xturn roll g.Xarray g.Oarray
        = validMoveO 17 (17 - roll) g.Xarray g.Oarray ∧
      turn g roll inputs = turn g roll [] ∧
      ∀ g1, turn g roll inputs = TurnResult.next g1 →
        g1.history = g.history ∨ g1.history = ⟨Side.O, 17, 17 - roll⟩ :: g.history) := by
  constructor
  · intro hx hb
    have hne : g.Xarray 0 ≠ 0 := by omega
    have hm : mustMove true g.Xarray g.Oarray = true := by simp [mustMove, hne]
    have hp : movePossible true roll g.Xarray g.Oarray
        = validMoveX 0 roll g.Xarray g.Oarray := by simp [movePossible, hm]
    rw [hx]
    refine ⟨hp, ?_, ?_⟩
    · simp only [turn, hx, hm, hp, if_true]
    · intro g1 ht
      simp only [turn, hx, hm, hp, if_true] at ht
      cases hv : validMoveX 0 roll g.Xarray g.Oarray
      · simp [hv] at ht
        left; rw [← ht]
      · simp [hv] at ht
        right; rw [← ht, afterMove_history]
  · intro hx hb
    have hne : g.Oarray 17 ≠ 0 := by omega
    have hm : mustMove false g.Xarray g.Oarray = true := by simp [mustMove, hne]
    have hp : movePossible false roll g.Xarray g.Oarray
        = validMoveO 17 (17 - roll) g.Xarray g.Oarray := by simp [movePossible, hm]
    rw [hx]
    refine ⟨hp, ?_, ?_⟩
    · simp only [turn, hx, hm, hp, if_true]
    · intro g1 ht
      simp only [turn, hx, hm, hp, if_true] at ht
      cases hv : validMoveO 17 (17 - roll) g.Xarray g.Oarray
      · simp [hv] at ht
        left; rw [← ht]
      · simp [hv] at ht
        right; rw [← ht, afterMove_history]

theorem forced_reentry_in_turn_witness :
    (playD initial hitScript).Xturn = true ∧ (playD initial hitScript).Xarray 0 > 0 ∧
    movePossible (playD initial hitScript).Xturn 2 (playD initial hitScript).Xarray
        (playD initial hitScript).Oarray
      = validMoveX 0 2 (playD initial hitScript).Xarray (playD initial hitScript).Oarray ∧
    turn (playD initial hitScript) 2 [1] = turn (playD initial hitScript) 2 [] :=
  have h := (forced_reentry_in_turn (playD initial hitScript) 2 [1]).1 (by decide) (by decide)
  ⟨by decide, by decide, h.1, h.2.1⟩

/-- C10 as stated fails.  At the end of `raceScript` X is announced as the
winner with 7 checkers borne off, not 15. -/
theorem winner_with_seven_borne_off :
    Reachable (playD initial raceScript) ∧
    (playD initial raceScript).winner = some Side.X ∧
    borneOff Side.X (playD initial raceScript) = 7 ∧
    ¬ ((playD initial raceScript).winner = some Side.X ↔
        borneOff Side.X (playD initial raceScript) = 15) :=
  ⟨reachable_playD raceScript Reachable.start, by decide, by decide, by decide⟩

/-- C10, amended.  Win detection with the 7 checkers a side starts with: in
every reachable state, the winner announced by the win check that follows an
applied move is side S if and only if S has borne off 7 checkers, which is the
case if and only if every entry of the array of S (points and bar) is 0; no
winner is announced if and only if neither side has borne off 7. -/
theorem win_detection (g : Game) (h : Reachable g) :
    (g.winner = some Side.X ↔ borneOff Side.X g = 7) ∧
    (g.winner = some Side.O ↔ borneOff Side.O g = 7) ∧
    (g.winner = none ↔ borneOff Side.X g ≠ 7 ∧ borneOff Side.O g ≠ 7) ∧
    (borneOff Side.X g = 7 ↔ ∀ i, g.Xarray i = 0) ∧
    (borneOff Side.O g = 7 ↔ ∀ i, g.Oarray i = 0) := by
  have hi := reachable_inv h
  have tX := hi.totalX
  have tO := hi.totalO
  have zX := countCheckers_eq_zero hi.board.nonnegX
  have zO := countCheckers_eq_zero hi.board.nonnegO
  have bX : borneOff Side.X g = 7 ↔ countCheckers g.Xarray = 0 := by omega
  have bO : borneOff Side.O g = 7 ↔ countCheckers g.Oarray = 0 := by omega
  refine ⟨?_, ?_, ?_, bX.trans zX, bO.trans zO⟩
  · rw [bX]
    cases hg : g.gameOver
    · obtain ⟨a, b, c⟩ := hi.running hg
      simp [c, a]
    · rcases hi.over hg with ⟨a, b, c⟩ | ⟨a, b, c⟩
      · simp [a, b]
      · simp [a, c]
  · rw [bO]
    cases hg : g.gameOver
    · obtain ⟨a, b, c⟩ := hi.running hg
      simp [c, b]
    · rcases hi.over hg with ⟨a, b, c⟩ | ⟨a, b, c⟩
      · simp [a, c]
      · simp [a, b]
  · rw [ne_eq, ne_eq, bX, bO]
    cases hg : g.gameOver
    · obtain ⟨a, b, c⟩ := hi.running hg
      simp [c, a, b]
    · rcases hi.over hg with ⟨a, b, c⟩ | ⟨a, b, c⟩
      · simp [a, b]
      · simp [a, b]

theorem win_detection_witness :
    Reachable (playD initial raceScript) ∧
    ((playD initial raceScript).winner = some Side.X ↔
      borneOff Side.X (playD initial raceScript) = 7) ∧
    (playD initial raceScript).winner = some Side.X :=
  ⟨reachable_playD raceScript Reachable.start,
   (win_detection (playD initial raceScript) (reachable_playD raceScript Reachable.start)).1,
   by decide⟩

/-! ## Further properties of the legality predicates -/

/-- C14.  Unconditional bearing off: from a start that holds at least one of
the mover's checkers, a destination beyond the end of the mover's run
(`dest > 16` for `validMoveX`, `dest < 1` for `validMoveO`) is accepted, whatever
the rest of the two arrays holds. -/
theorem bearing_off_always_legal (start : Fin 18) (dest : Int) (Xarray Oarray : Arr) :
    (0 < Xarray start → dest > 16 → validMoveX start dest Xarray Oarray = true) ∧
    (0 < Oarray start → dest < 1 → validMoveO start dest Xarray Oarray = true) := by
  constructor
  · intro hs hd
    have h0 : Xarray start ≠ 0 := by omega
    simp [validMoveX, h0, hd]
  · intro hs hd
    have h0 : Oarray start ≠ 0 := by omega
    simp [validMoveO, h0, hd]

theorem bearing_off_always_legal_witness :
    (0 < blockedX 1 ∧ (20 : Int) > 16 ∧ validMoveX 1 20 blockedX blockedO = true) ∧
    (0 < blockedO 4 ∧ (-1 : Int) < 1 ∧ validMoveO 4 (-1) blockedX blockedO = true) :=
  ⟨⟨by decide, by decide,
    (bearing_off_always_legal 1 20 blockedX blockedO).1 (by decide) (by decide)⟩,
   ⟨by decide, by decide,
    (bearing_off_always_legal 4 (-1) blockedX blockedO).2 (by decide) (by decide)⟩⟩

/-- C15.  Accepted destinations: on every board (with non-negative counts or
not), from a start holding at least one of the mover's checkers, a destination
point 1..16 is accepted whenever it is empty of both sides, or holds exactly one
opposing checker, or holds no opposing checker and at most 4 of the mover's
own. -/
theorem accepted_destinations (start : Fin 18) (dest : Int) (Xarray Oarray : Arr)
    (hd : 1 ≤ dest ∧ dest ≤ 16) :
    (0 < Xarray start →
      ((Xarray (idx dest) = 0 ∧ Oarray (idx dest) = 0) ∨ Oarray (idx dest) = 1 ∨
        (Oarray (idx dest) = 0 ∧ Xarray (idx dest) ≤ 4)) →
      validMoveX start dest Xarray Oarray = true) ∧
    (0 < Oarray start →
      ((Xarray (idx dest) = 0 ∧ Oarray (idx dest) = 0) ∨ Xarray (idx dest) = 1 ∨
        (Xarray (idx dest) = 0 ∧ Oarray (idx dest) ≤ 4)) →
      validMoveO start dest Xarray Oarray = true) := by
  obtain ⟨d1, d16⟩ := hd
  constructor
  · intro hs hc
    have h0 : Xarray start ≠ 0 := by omega
    have hb : ¬ dest > 16 := by omega
    have ho : Oarray (idx dest) = 0 ∨ Oarray (idx dest) = 1 := by omega
    simp [validMoveX, h0, hb, d1, d16, ho]
  · intro hs hc
    have h0 : Oarray start ≠ 0 := by omega
    have hb : ¬ dest < 1 := by omega
    have ho : Xarray (idx dest) = 0 ∨ Xarray (idx dest) = 1 := by omega
    simp [validMoveO, h0, hb, d1, d16, ho]

theorem accepted_destinations_witness :
    validMoveX 1 4 hitX hitO = true ∧ validMoveX 1 2 hitX hitO = true ∧
    validMoveO 16 13 hitX hitO = true ∧ validMoveO 16 15 hitX hitO = true :=
  ⟨(accepted_destinations 1 4 hitX hitO ⟨by decide, by decide⟩).1
      (by decide) (by decide),
   (accepted_destinations 1 2 hitX hitO ⟨by decide, by decide⟩).1
      (by decide) (by decide),
   (accepted_destinations 16 13 hitX hitO ⟨by decide, by decide⟩).2
      (by decide) (by decide),
   (accepted_destinations 16 15 hitX hitO ⟨by decide, by decide⟩).2
      (by decide) (by decide)⟩

/-- C17.  Empty start is rejected: when the mover has no checker at `start`
(the bar included), `validMoveX` / `validMoveO` returns false for every
destination, on the board or off it. -/
theorem empty_start_rejected (start : Fin 18) (dest : Int) (Xarray Oarray : Arr) :
    (Xarray start = 0 → validMoveX start dest Xarray Oarray = false) ∧
    (Oarray start = 0 → validMoveO start dest Xarray Oarray = false) := by
  constructor
  · intro h
    simp [validMoveX, h]
  · intro h
    simp [validMoveO, h]

theorem empty_start_rejected_witness :
    (hitX 0 = 0 ∧ validMoveX 0 3 hitX hitO = false ∧ validMoveX 2 17 hitX hitO = false) ∧
    (hitO 17 = 0 ∧ validMoveO 17 14 hitX hitO = false ∧ validMoveO 2 0 hitX hitO = false) :=
  ⟨⟨by decide, (empty_start_rejected 0 3 hitX hitO).1 (by decide),
    (empty_start_rejected 2 17 hitX hitO).1 (by decide)⟩,
   ⟨by decide, (empty_start_rejected 17 14 hitX hitO).2 (by decide),
    (empty_start_rejected 2 0 hitX hitO).2 (by decide)⟩⟩

/-! ## The flag `movePossible` and forced reentry -/

theorem mem_points (p : Fin 18) : p ∈ points ↔ 1 ≤ p.val ∧ p.val ≤ 16 := by
  fin_cases p <;> simp [points]

/-- C12.  Any-legal-move detection.  For every board and roll, the flag
`movePossible` computed by `main` is: on the turn of X with a checker on the
bar (`Xarray[0] != 0`), the result of `validMoveX(0, roll)`; on the turn of O
with a checker on the bar (`Oarray[17] != 0`), the result of
`validMoveO(17, 17 - roll)`; and with an empty bar, true if and only if some
point `p` in 1..16 holds at least one of the side's checkers and the move from
`p` to `p + roll` (X) or `p - roll` (O) is accepted by the legality predicate of
the side. -/
theorem movePossible_spec (roll : Int) (Xarray Oarray : Arr) :
    (Xarray 0 ≠ 0 →
      movePossible true roll Xarray Oarray = validMoveX 0 roll Xarray Oarray) ∧
    (Oarray 17 ≠ 0 →
      movePossible false roll Xarray Oarray = validMoveO 17 (17 - roll) Xarray Oarray) ∧
    (Xarray 0 = 0 →
      (movePossible true roll Xarray Oarray = true ↔
        ∃ p : Fin 18, 1 ≤ p.val ∧ p.val ≤ 16 ∧ 0 < Xarray p ∧
          validMoveX p ((p.val : Int) + roll) Xarray Oarray = true)) ∧
    (Oarray 17 = 0 →
      (movePossible false roll Xarray Oarray = true ↔
        ∃ p : Fin 18, 1 ≤ p.val ∧ p.val ≤ 16 ∧ 0 < Oarray p ∧
          validMoveO p ((p.val : Int) - roll) Xarray Oarray = true)) := by
  refine ⟨?_, ?_, ?_, ?_⟩
  · intro h
    simp [movePossible, mustMove, h]
  · intro h
    simp [movePossible, mustMove, h]
  · intro h
    have hm : mustMove true Xarray Oarray = false := by simp [mustMove, h]
    simp only [movePossible, hm, List.any_eq_true, Bool.and_eq_true, decide_eq_true_eq]
    simp only [Bool.false_eq_true, if_false, if_true, List.any_eq_true, Bool.and_eq_true,
      decide_eq_true_eq]
    constructor
    · rintro ⟨p, hp, h1, h2⟩
      exact ⟨p, ((mem_points p).1 hp).1, ((mem_points p).1 hp).2, h1, h2⟩
    · rintro ⟨p, a, b, h1, h2⟩
      exact ⟨p, (mem_points p).2 ⟨a, b⟩, h1, h2⟩
  · intro h
    have hm : mustMove false Xarray Oarray = false := by simp [mustMove, h]
    simp only [movePossible, hm, List.any_eq_true, Bool.and_eq_true, decide_eq_true_eq]
    simp only [Bool.false_eq_true, if_false, if_true, List.any_eq_true, Bool.and_eq_true,
      decide_eq_true_eq]
    constructor
    · rintro ⟨p, hp, h1, h2⟩
      exact ⟨p, ((mem_points p).1 hp).1, ((mem_points p).1 hp).2, h1, h2⟩
    · rintro ⟨p, a, b, h1, h2⟩
      exact ⟨p, (mem_points p).2 ⟨a, b⟩, h1, h2⟩

theorem movePossible_spec_witness :
    ((playD initial hitScript).Xarray 0 ≠ 0 ∧
      movePossible true 2 (playD initial hitScript).Xarray (playD initial hitScript).Oarray
        = validMoveX 0 2 (playD initial hitScript).Xarray (playD initial hitScript).Oarray) ∧
    (initial.Oarray 17 = 0 ∧
      (movePossible false 3 initial.Xarray initial.Oarray = true ↔
        ∃ p : Fin 18, 1 ≤ p.val ∧ p.val ≤ 16 ∧ 0 < initial.Oarray p ∧
          validMoveO p ((p.val : Int) - 3) initial.Xarray initial.Oarray = true)) :=
  ⟨⟨by decide,
    (movePossible_spec 2 (playD initial hitScript).Xarray (playD initial hitScript).Oarray).1
      (by decide)⟩,
   ⟨by decide, (movePossible_spec 3 initial.Xarray initial.Oarray).2.2.2 (by decide)⟩⟩

theorem moveX_onBoard_X {start : Fin 18} {dest : Int} {Xarray Oarray : Arr}
    (hv : validMoveX start dest Xarray Oarray = true) (hb : ¬ dest > 16)
    (hne : start ≠ idx dest) :
    (moveX start dest Xarray Oarray).1 =
      (Xarray.set start (Xarray start - 1)).set (idx dest) (Xarray (idx dest) + 1) := by
  have hne2 : idx dest ≠ start := fun e => hne e.symm
  simp only [moveX, hb, hv, if_true, if_false]
  split_ifs
  · funext i
    simp only [Arr.set_apply]
    split_ifs <;> (try subst_vars) <;> first | rfl | omega
  · funext i
    simp only [Arr.set_apply]
    split_ifs <;> (try subst_vars) <;> rfl

theorem moveO_onBoard_O {start : Fin 18} {dest : Int} {Xarray Oarray : Arr}
    (hv : validMoveO start dest Xarray Oarray = true) (hb : ¬ dest < 1)
    (hne : start ≠ idx dest) :
    (moveO start dest Xarray Oarray).2 =
      (Oarray.set start (Oarray start - 1)).set (idx dest) (Oarray (idx dest) + 1) := by
  have hne2 : idx dest ≠ start := fun e => hne e.symm
  simp only [moveO, hb, hv, if_true, if_false]
  split_ifs
  · funext i
    simp only [Arr.set_apply]
    split_ifs <;> (try subst_vars) <;> first | rfl | omega
  · funext i
    simp only [Arr.set_apply]
    split_ifs <;> (try subst_vars) <;> rfl

theorem moveX_noHit_O (start : Fin 18) (dest : Int) (Xarray Oarray : Arr)
    (hO : Oarray (idx dest) ≠ 1) : (moveX start dest Xarray Oarray).2 = Oarray := by
  simp only [moveX]
  split_ifs <;> rfl

theorem moveO_noHit_X (start : Fin 18) (dest : Int) (Xarray Oarray : Arr)
    (hX : Xarray (idx dest) ≠ 1) : (moveO start dest Xarray Oarray).1 = Xarray := by
  simp only [moveO]
  split_ifs <;> rfl

/-- C13.  Forced reentry at turn level.  For every board (reachable or not) and
every roll in 1..6: an iteration of the game loop that the side to move begins
with a checker on its bar runs to its end whatever the player types, and it
either passes (both arrays and the record of moves unchanged, the turn handed
over) or applies exactly one move, the one from the bar to the reentry
destination (0 -> roll for X, 17 -> 17 - roll for O); the bar count drops by 1
and no point 1..16 loses a checker of the mover. -/
theorem forced_reentry_turn (g : Game) (roll : Int) (inputs : List Int)
    (hr : 1 ≤ roll ∧ roll ≤ 6) :
    (g.Xturn = true → 0 < g.Xarray 0 →
      ∃ g1, turn g roll inputs = TurnResult.next g1 ∧
        ((validMoveX 0 roll g.Xarray g.Oarray = false ∧
            g1.Xarray = g.Xarray ∧ g1.Oarray = g.Oarray ∧ g1.history = g.history ∧
            g1.Xturn = false ∧ g1.gameOver = g.gameOver) ∨
         (validMoveX 0 roll g.Xarray g.Oarray = true ∧
            g1.history = ⟨Side.X, 0, roll⟩ :: g.history ∧
            g1.Xarray = (moveX 0 roll g.Xarray g.Oarray).1 ∧
            g1.Oarray = (moveX 0 roll g.Xarray g.Oarray).2 ∧
            g1.Xarray 0 = g.Xarray 0 - 1 ∧
            g1.Xarray (idx roll) = g.Xarray (idx roll) + 1 ∧
            ∀ p : Fin 18, p ≠ 0 → p ≠ idx roll → g1.Xarray p = g.Xarray p))) ∧
    (g.Xturn = false → 0 < g.Oarray 17 →
      ∃ g1, turn g roll inputs = TurnResult.next g1 ∧
        ((validMoveO 17 (17 - roll) g.Xarray g.Oarray = false ∧
            g1.Xarray = g.Xarray ∧ g1.Oarray = g.Oarray ∧ g1.history = g.history ∧
            g1.Xturn = true ∧ g1.gameOver = g.gameOver) ∨
         (validMoveO 17 (17 - roll) g.Xarray g.Oarray = true ∧
            g1.history = ⟨Side.O, 17, 17 - roll⟩ :: g.history ∧
            g1.Xarray = (moveO 17 (17 - roll) g.Xarray g.Oarray).1 ∧
            g1.Oarray = (moveO 17 (17 - roll) g.Xarray g.Oarray).2 ∧
            g1.Oarray 17 = g.Oarray 17 - 1 ∧
            g1.Oarray (idx (17 - roll)) = g.Oarray (idx (17 - roll)) + 1 ∧
            ∀ p : Fin 18, p ≠ 17 → p ≠ idx (17 - roll) → g1.Oarray p = g.Oarray p))) := by
  obtain ⟨r1, r6⟩ := hr
  constructor
  · intro hx hb
    have hne : g.Xarray 0 ≠ 0 := by omega
    have hm : mustMove true g.Xarray g.Oarray = true := by simp [mustMove, hne]
    have hp : movePossible true roll g.Xarray g.Oarray
        = validMoveX 0 roll g.Xarray g.Oarray := by simp [movePossible, hm]
    cases hv : validMoveX 0 roll g.Xarray g.Oarray
    · refine ⟨{ g with Xturn := ! g.Xturn }, ?_, Or.inl ⟨rfl, rfl, rfl, rfl, ?_, rfl⟩⟩
      · simp [turn, hx, hm, hp, hv]
      · simp [hx]
    · refine ⟨afterMove g ⟨Side.X, 0, roll⟩ (moveX 0 roll g.Xarray g.Oarray), ?_, Or.inr ?_⟩
      · simp [turn, hx, hm, hp, hv]
      · have hd : (0 : Fin 18) ≠ idx roll := fun e => idx_ne_zero r1 (by omega) e.symm
        have hX := moveX_onBoard_X hv (by omega) hd
        refine ⟨rfl, afterMove_history _ _ _, afterMove_Xarray _ _ _, afterMove_Oarray _ _ _,
          ?_, ?_, ?_⟩
        · rw [afterMove_Xarray, hX]
          simp [Arr.set_apply, hd]
        · rw [afterMove_Xarray, hX]
          simp [Arr.set_apply, hd.symm]
        · intro p p0 pd
          rw [afterMove_Xarray, hX]
          simp [Arr.set_apply, p0, pd]
  · intro hx hb
    have hne : g.Oarray 17 ≠ 0 := by omega
    have hm : mustMove false g.Xarray g.Oarray = true := by simp [mustMove, hne]
    have hp : movePossible false roll g.Xarray g.Oarray
        = validMoveO 17 (17 - roll) g.Xarray g.Oarray := by simp [movePossible, hm]
    cases hv : validMoveO 17 (17 - roll) g.Xarray g.Oarray
    · refine ⟨{ g with Xturn := ! g.Xturn }, ?_, Or.inl ⟨rfl, rfl, rfl, rfl, ?_, rfl⟩⟩
      · simp [turn, hx, hm, hp, hv]
      · simp [hx]
    · refine ⟨afterMove g ⟨Side.O, 17, 17 - roll⟩ (moveO 17 (17 - roll) g.Xarray g.Oarray),
        ?_, Or.inr ?_⟩
      · simp [turn, hx, hm, hp, hv]
      · have hd : (17 : Fin 18) ≠ idx (17 - roll) :=
          fun e => idx_ne_last (by omega) (by omega) e.symm
        have hO := moveO_onBoard_O hv (by omega) hd
        refine ⟨rfl, afterMove_history _ _ _, afterMove_Xarray _ _ _, afterMove_Oarray _ _ _,
          ?_, ?_, ?_⟩
        · rw [afterMove_Oarray, hO]
          simp [Arr.set_apply, hd]
        · rw [afterMove_Oarray, hO]
          simp [Arr.set_apply, hd.symm]
        · intro p p0 pd
          rw [afterMove_Oarray, hO]
          simp [Arr.set_apply, p0, pd]

theorem forced_reentry_turn_witness :
    (1 ≤ (2 : Int) ∧ (2 : Int) ≤ 6) ∧
    (playD initial hitScript).Xturn = true ∧ 0 < (playD initial hitScript).Xarray 0 ∧
    ∃ g1, turn (playD initial hitScript) 2 [1, 3] = TurnResult.next g1 ∧
      g1.history = ⟨Side.X, 0, 2⟩ :: (playD initial hitScript).history ∧
      g1.Xarray 0 = 0 :=
  have h := (forced_reentry_turn (playD initial hitScript) 2 [1, 3] ⟨by decide, by decide⟩).1
    (by decide) (by decide)
  ⟨⟨by decide, by decide⟩, by decide, by decide,
    h.elim fun g1 hg => ⟨g1, hg.1, hg.2.elim
      (fun hp => absurd hp.1 (by decide))
      (fun hm => ⟨hm.2.1, by rw [hm.2.2.2.2.1]; decide⟩)⟩⟩

/-! ## Plain moves and non-negative counts -/

/-- C16.  Plain move effect: when the legality predicate accepts a move from
`start` to a different position `dest` that is a point 1..16 not holding exactly
one opposing checker, the move lowers the mover's count at `start` by exactly 1,
raises the mover's count at `dest` by exactly 1, changes no other entry of the
mover's array and no entry of the opponent's array.  In particular, on the
starting board with roll 3 the X move from point 1 to point 4 is accepted and
`moveX` leaves `Xarray[1] == 4`, `Xarray[4] == 1` and everything else as it
was. -/
theorem plain_move_effect (start : Fin 18) (dest : Int) (Xarray Oarray : Arr)
    (hd : 1 ≤ dest ∧ dest ≤ 16) (hne : (start.val : Int) ≠ dest) :
    (validMoveX start dest Xarray Oarray = true → Oarray (idx dest) ≠ 1 →
      (moveX start dest Xarray Oarray).1 start = Xarray start - 1 ∧
      (moveX start dest Xarray Oarray).1 (idx dest) = Xarray (idx dest) + 1 ∧
      (∀ p : Fin 18, p ≠ start → p ≠ idx dest →
        (moveX start dest Xarray Oarray).1 p = Xarray p) ∧
      (moveX start dest Xarray Oarray).2 = Oarray) ∧
    (validMoveO start dest Xarray Oarray = true → Xarray (idx dest) ≠ 1 →
      (moveO start dest Xarray Oarray).2 start = Oarray start - 1 ∧
      (moveO start dest Xarray Oarray).2 (idx dest) = Oarray (idx dest) + 1 ∧
      (∀ p : Fin 18, p ≠ start → p ≠ idx dest →
        (moveO start dest Xarray Oarray).2 p = Oarray p) ∧
      (moveO start dest Xarray Oarray).1 = Xarray) ∧
    (validMoveX 1 (1 + 3) initial.Xarray initial.Oarray = true ∧
      (moveX 1 (1 + 3) initial.Xarray initial.Oarray).1 =
        (fun i => if i = 1 then 4 else if i = 3 then 2 else if i = 4 then 1 else 0) ∧
      (moveX 1 (1 + 3) initial.Xarray initial.Oarray).2 = initial.Oarray) := by
  obtain ⟨d1, d16⟩ := hd
  have hs : start ≠ idx dest := idx_ne_of_ne start (by omega) (by omega) hne
  refine ⟨?_, ?_, by decide, by decide, by decide⟩
  · intro hv hO
    rw [moveX_onBoard_X hv (by omega) hs, moveX_noHit_O start dest Xarray Oarray hO]
    refine ⟨?_, ?_, ?_, rfl⟩
    · simp [Arr.set_apply, hs]
    · simp [Arr.set_apply]
    · intro p ps pd
      simp [Arr.set_apply, ps, pd]
  · intro hv hX
    rw [moveO_onBoard_O hv (by omega) hs, moveO_noHit_X start dest Xarray Oarray hX]
    refine ⟨?_, ?_, ?_, rfl⟩
    · simp [Arr.set_apply, hs]
    · simp [Arr.set_apply]
    · intro p ps pd
      simp [Arr.set_apply, ps, pd]

theorem plain_move_effect_witness :
    ((1 : Int) ≤ 4 ∧ (4 : Int) ≤ 16) ∧ (((1 : Fin 18).val : Int) ≠ 4) ∧
    validMoveX 1 4 initial.Xarray initial.Oarray = true ∧ initial.Oarray (idx 4) ≠ 1 ∧
    (moveX 1 4 initial.Xarray initial.Oarray).1 1 = initial.Xarray 1 - 1 ∧
    (moveX 1 4 initial.Xarray initial.Oarray).1 (idx 4) = initial.Xarray (idx 4) + 1 ∧
    (moveX 1 4 initial.Xarray initial.Oarray).2 = initial.Oarray :=
  have h := (plain_move_effect 1 4 initial.Xarray initial.Oarray ⟨by decide, by decide⟩
    (by decide)).1 (by decide) (by decide)
  ⟨⟨by decide, by decide⟩, by decide, by decide, by decide, h.1, h.2.1, h.2.2.2⟩

theorem moveX_nonneg {start : Fin 18} {dest : Int} {Xarray Oarray : Arr}
    (hX : ∀ i, 0 ≤ Xarray i) (hO : ∀ i, 0 ≤ Oarray i)
    (hv : validMoveX start dest Xarray Oarray = true) :
    (∀ i, 0 ≤ (moveX start dest Xarray Oarray).1 i) ∧
    (∀ i, 0 ≤ (moveX start dest Xarray Oarray).2 i) := by
  have hst := validMoveX_start hv
  have n1 := hX start
  have n17 := hO 17
  by_cases hb : dest > 16
  · simp only [moveX, hb, if_true]
    refine ⟨fun i => ?_, hO⟩
    have := hX i
    simp only [Arr.set_apply]
    split_ifs <;> omega
  · obtain ⟨_, _, hle⟩ := validMoveX_onBoard hv hb
    have n2 := hX (idx dest)
    have n3 := hO (idx dest)
    simp only [moveX, hb, hv, if_true, if_false]
    generalize idx dest = d at *
    split_ifs with hit
    · refine ⟨fun i => ?_, fun i => ?_⟩
      · have := hX i
        simp only [Arr.set_apply]
        split_ifs <;> (try subst_vars) <;> omega
      · have := hO i
        simp only [Arr.set_apply]
        split_ifs <;> (try subst_vars) <;> omega
    · refine ⟨fun i => ?_, hO⟩
      have := hX i
      simp only [Arr.set_apply]
      split_ifs <;> (try subst_vars) <;> omega

theorem moveO_nonneg {start : Fin 18} {dest : Int} {Xarray Oarray : Arr}
    (hX : ∀ i, 0 ≤ Xarray i) (hO : ∀ i, 0 ≤ Oarray i)
    (hv : validMoveO start dest Xarray Oarray = true) :
    (∀ i, 0 ≤ (moveO start dest Xarray Oarray).1 i) ∧
    (∀ i, 0 ≤ (moveO start dest Xarray Oarray).2 i) := by
  have hst := validMoveO_start hv
  have n1 := hO start
  have n0 := hX 0
  by_cases hb : dest < 1
  · simp only [moveO, hb, if_true]
    refine ⟨hX, fun i => ?_⟩
    have := hO i
    simp only [Arr.set_apply]
    split_ifs <;> omega
  · obtain ⟨_, _, hle⟩ := validMoveO_onBoard hv hb
    have n2 := hX (idx dest)
    have n3 := hO (idx dest)
    simp only [moveO, hb, hv, if_true, if_false]
    generalize idx dest = d at *
    split_ifs with hit
    · refine ⟨fun i => ?_, fun i => ?_⟩
      · have := hX i
        simp only [Arr.set_apply]
        split_ifs <;> (try subst_vars) <;> omega
      · have := hO i
        simp only [Arr.set_apply]
        split_ifs <;> (try subst_vars) <;> omega
    · refine ⟨hX, fun i => ?_⟩
      have := hO i
      simp only [Arr.set_apply]
      split_ifs <;> (try subst_vars) <;> omega

/-- C18.  Non-negative counts: on a board whose 36 entries are all
non-negative, every move accepted by `validMoveX` / `validMoveO` makes `moveX` /
`moveO` produce a board whose 36 entries are again all non-negative; and every
entry of `Xarray` and `Oarray` is non-negative in every state reachable from the
starting board. -/
theorem counts_stay_nonnegative :
    (∀ (start : Fin 18) (dest : Int) (Xarray Oarray : Arr),
      (∀ i, 0 ≤ Xarray i) → (∀ i, 0 ≤ Oarray i) →
      (validMoveX start dest Xarray Oarray = true →
        (∀ i, 0 ≤ (moveX start dest Xarray Oarray).1 i) ∧
        (∀ i, 0 ≤ (moveX start dest Xarray Oarray).2 i)) ∧
      (validMoveO start dest Xarray Oarray = true →
        (∀ i, 0 ≤ (moveO start dest Xarray Oarray).1 i) ∧
        (∀ i, 0 ≤ (moveO start dest Xarray Oarray).2 i))) ∧
    (∀ g : Game, Reachable g → (∀ i, 0 ≤ g.Xarray i) ∧ (∀ i, 0 ≤ g.Oarray i)) := by
  refine ⟨fun start dest Xarray Oarray hX hO => ⟨moveX_nonneg hX hO, moveO_nonneg hX hO⟩, ?_⟩
  intro g hg
  exact ⟨(reachable_inv hg).board.nonnegX, (reachable_inv hg).board.nonnegO⟩

theorem counts_stay_nonnegative_witness :
    ((∀ i, 0 ≤ hitX i) ∧ (∀ i, 0 ≤ hitO i) ∧ validMoveX 1 4 hitX hitO = true ∧
      (∀ i, 0 ≤ (moveX 1 4 hitX hitO).1 i) ∧ (∀ i, 0 ≤ (moveX 1 4 hitX hitO).2 i)) ∧
    (Reachable (playD initial raceScript) ∧
      (∀ i, 0 ≤ (playD initial raceScript).Xarray i) ∧
      (∀ i, 0 ≤ (playD initial raceScript).Oarray i)) :=
  have h1 := (counts_stay_nonnegative.1 1 4 hitX hitO (by decide) (by decide)).1 (by decide)
  have h2 := counts_stay_nonnegative.2 (playD initial raceScript)
    (reachable_playD raceScript Reachable.start)
  ⟨⟨by decide, by decide, by decide, h1.1, h1.2⟩,
   ⟨reachable_playD raceScript Reachable.start, h2.1, h2.2⟩⟩

/-! ## When a winner is announced -/

theorem afterMoveX_winner {g : Game} {start : Fin 18} {dest : Int} {s : Side} (hi : Inv g)
    (hg : g.gameOver = false) (hv : validMoveX start dest g.Xarray g.Oarray = true)
    (hw : (afterMove g ⟨Side.X, start, dest⟩
      (moveX start dest g.Xarray g.Oarray)).winner = some s) :
    LastBearOff s g (afterMove g ⟨Side.X, start, dest⟩
      (moveX start dest g.Xarray g.Oarray)) := by
  have cX := moveX_countX hv
  have cO := moveX_countO start dest g.Xarray g.Oarray
  obtain ⟨rX, rO, _⟩ := hi.running hg
  by_cases z1 : countCheckers (moveX start dest g.Xarray g.Oarray).1 = 0
  · have hs : s = Side.X := by
      simp [afterMove, z1] at hw
      exact hw.symm
    subst hs
    have hd : dest > 16 := by
      by_contra hc
      rw [if_neg hc] at cX
      omega
    rw [if_pos hd] at cX
    refine ⟨⟨Side.X, start, dest⟩, afterMove_history _ _ _, rfl, ?_, ?_, ?_, ?_⟩
    · simp [Applied.isBearOff, hd]
    · rw [afterMove_Xarray, afterMove_Oarray]
      rfl
    · show countCheckers g.Xarray = 1
      omega
    · show countCheckers (afterMove g ⟨Side.X, start, dest⟩
        (moveX start dest g.Xarray g.Oarray)).Xarray = 0
      rw [afterMove_Xarray]
      exact z1
  · by_cases z2 : countCheckers (moveX start dest g.Xarray g.Oarray).2 = 0
    · omega
    · simp [afterMove, z1, z2] at hw

theorem afterMoveO_winner {g : Game} {start : Fin 18} {dest : Int} {s : Side} (hi : Inv g)
    (hg : g.gameOver = false) (hv : validMoveO start dest g.Xarray g.Oarray = true)
    (hw : (afterMove g ⟨Side.O, start, dest⟩
      (moveO start dest g.Xarray g.Oarray)).winner = some s) :
    LastBearOff s g (afterMove g ⟨Side.O, start, dest⟩
      (moveO start dest g.Xarray g.Oarray)) := by
  have cO := moveO_countO hv
  have cX := moveO_countX start dest g.Xarray g.Oarray
  obtain ⟨rX, rO, _⟩ := hi.running hg
  by_cases z1 : countCheckers (moveO start dest g.Xarray g.Oarray).1 = 0
  · omega
  · by_cases z2 : countCheckers (moveO start dest g.Xarray g.Oarray).2 = 0
    · have hs : s = Side.O := by
        simp [afterMove, z1, z2] at hw
        exact hw.symm
      subst hs
      have hd : dest < 1 := by
        by_contra hc
        rw [if_neg hc] at cO
        omega
      rw [if_pos hd] at cO
      refine ⟨⟨Side.O, start, dest⟩, afterMove_history _ _ _, rfl, ?_, ?_, ?_, ?_⟩
      · simp [Applied.isBearOff, hd]
      · rw [afterMove_Xarray, afterMove_Oarray]
        rfl
      · show countCheckers g.Oarray = 1
        omega
      · show countCheckers (afterMove g ⟨Side.O, start, dest⟩
          (moveO start dest g.Xarray g.Oarray)).Oarray = 0
        rw [afterMove_Oarray]
        exact z2
    · simp [afterMove, z1, z2] at hw

theorem turn_winner {g g1 : Game} {roll : Int} {inputs : List Int} {s : Side} (hi : Inv g)
    (hg : g.gameOver = false) (h : turn g roll inputs = TurnResult.next g1)
    (hw : g1.winner = some s) : LastBearOff s g g1 := by
  obtain ⟨_, _, wn⟩ := hi.running hg
  rcases turn_next h with ⟨_, e⟩ | ⟨_, _, _, hv, e⟩ | ⟨_, _, _, hv, e⟩ | ⟨_, _, t, _, _, _, hf⟩
  · subst e
    simp [wn] at hw
  · subst e
    exact afterMoveX_winner hi hg hv hw
  · subst e
    exact afterMoveO_winner hi hg hv hw
  · rcases hf with ⟨_, hv, e⟩ | ⟨_, hv, e⟩
    · subst e
      exact afterMoveX_winner hi hg hv hw
    · subst e
      exact afterMoveO_winner hi hg hv hw

theorem singleton_split {g x : Game} {pre post : List Game}
    (h : [g] = pre ++ x :: post) : pre = [] ∧ x = g ∧ post = [] := by
  cases pre with
  | nil =>
    simp at h
    exact ⟨rfl, h.1.symm, h.2⟩
  | cons a pre1 => simp at h

theorem trace_winner {s : Side} (script : List (Int × List Int)) :
    ∀ g : Game, Reachable g → ∀ (pre : List Game) (x : Game) (post : List Game),
      trace g script = pre ++ x :: post → x.winner = some s →
      post = [] ∧ (∀ h ∈ pre, h.winner = none) ∧
      (∀ p, pre.getLast? = some p → LastBearOff s p x) ∧ (pre = [] → x = g) := by
  induction script with
  | nil =>
    intro g _ pre x post ht _
    simp only [trace] at ht
    obtain ⟨e1, e2, e3⟩ := singleton_split ht
    subst e1 e2 e3
    simp
  | cons head rest ih =>
    intro g hg pre x post ht hw
    obtain ⟨roll, inputs⟩ := head
    have single : [g] = pre ++ x :: post →
        post = [] ∧ (∀ h ∈ pre, h.winner = none) ∧
        (∀ p, pre.getLast? = some p → LastBearOff s p x) ∧ (pre = [] → x = g) := by
      intro h1
      obtain ⟨e1, e2, e3⟩ := singleton_split h1
      subst e1 e2 e3
      simp
    by_cases c : g.gameOver = false ∧ 1 ≤ roll ∧ roll ≤ 6
    · cases htn : turn g roll inputs with
      | next g1 =>
        simp only [trace, c, and_self, if_true, htn] at ht
        obtain ⟨_, _, wn⟩ := (reachable_inv hg).running c.1
        cases pre with
        | nil =>
          simp at ht
          rw [← ht.1, wn] at hw
          cases hw
        | cons a pre1 =>
          simp only [List.cons_append, List.cons.injEq] at ht
          obtain ⟨ea, ht1⟩ := ht
          subst ea
          have hg1 : Reachable g1 := Reachable.step roll inputs hg c.1 c.2.1 c.2.2 htn
          obtain ⟨i1, i2, i3, i4⟩ := ih g1 hg1 pre1 x post ht1 hw
          refine ⟨i1, ?_, ?_, ?_⟩
          · intro h hm
            rcases List.mem_cons.1 hm with e | hm1
            · rw [e]; exact wn
            · exact i2 h hm1
          · intro p hp
            cases pre1 with
            | nil =>
              simp at hp
              subst hp
              have ex := i4 rfl
              subst ex
              exact turn_winner (reachable_inv hg) c.1 htn hw
            | cons b pre2 =>
              rw [List.getLast?_cons_cons] at hp
              exact i3 p hp
          · intro e
            cases e
      | quit =>
        simp only [trace, c, and_self, if_true, htn] at ht
        exact single ht
      | looping =>
        simp only [trace, c, and_self, if_true, htn] at ht
        exact single ht
    · simp only [trace, c, if_false] at ht
      exact single ht

/-- C11.  Win is reported on the last bear-off and no earlier.  Along every
play from the starting board, if a state of the play reports side `s` as the
winner, then it is the last state of the play, no state before it reports any
winner, and it follows its predecessor by a bearing-off move of `s` itself that
takes the count of `s` from 1 to 0. -/
theorem win_on_last_bear_off (script : List (Int × List Int)) (pre : List Game) (x : Game)
    (post : List Game) (s : Side)
    (ht : trace initial script = pre ++ x :: post) (hw : x.winner = some s) :
    post = [] ∧ (∀ h ∈ pre, h.winner = none) ∧
    ∃ p, pre.getLast? = some p ∧ LastBearOff s p x := by
  obtain ⟨h1, h2, h3, h4⟩ := trace_winner script initial Reachable.start pre x post ht hw
  refine ⟨h1, h2, ?_⟩
  cases hp : pre.getLast? with
  | none =>
    have e : pre = [] := List.getLast?_eq_none_iff.1 hp
    have ex := h4 e
    subst ex
    have hn : initial.winner = none := rfl
    rw [hn] at hw
    cases hw
  | some p => exact ⟨p, rfl, h3 p hp⟩

theorem trace_ne_nil (g : Game) (script : List (Int × List Int)) : trace g script ≠ [] := by
  cases script with
  | nil => simp [trace]
  | cons head rest =>
    obtain ⟨roll, inputs⟩ := head
    simp only [trace]
    split_ifs
    · split <;> simp
    · simp

theorem win_on_last_bear_off_witness :
    ((trace initial raceScript).getLast (trace_ne_nil initial raceScript)).winner
      = some Side.X ∧
    (trace initial raceScript).dropLast.length = 41 ∧
    (∀ h ∈ (trace initial raceScript).dropLast, h.winner = none) ∧
    ∃ p, (trace initial raceScript).dropLast.getLast? = some p ∧
      LastBearOff Side.X p
        ((trace initial raceScript).getLast (trace_ne_nil initial raceScript)) :=
  have h := win_on_last_bear_off raceScript (trace initial raceScript).dropLast
    ((trace initial raceScript).getLast (trace_ne_nil initial raceScript)) [] Side.X
    (List.dropLast_append_getLast (trace_ne_nil initial raceScript)).symm (by decide)
  ⟨by decide, by decide, h.2.1, h.2.2⟩

/-! ## Forfeited turns, the rule on board points, and the totals -/

/-- C26.  Forfeited turn: when `movePossible` is false for the side to move and
the roll, the iteration of the game loop runs to its end whatever the player
types, leaves `Xarray` and `Oarray` (and the record of moves) unchanged, leaves
`gameOver` as it was, so it does not end the game, announces nothing new, and
hands the turn to the other side. -/
theorem forfeited_turn (g : Game) (roll : Int) (inputs : List Int)
    (h : movePossible g.Xturn roll g.Xarray g.Oarray = false) :
    ∃ g1, turn g roll inputs = TurnResult.next g1 ∧
      g1.Xarray = g.Xarray ∧ g1.Oarray = g.Oarray ∧ g1.history = g.history ∧
      g1.gameOver = g.gameOver ∧ g1.winner = g.winner ∧ g1.Xturn = ! g.Xturn := by
  refine ⟨{ g with Xturn := ! g.Xturn }, ?_, rfl, rfl, rfl, rfl, rfl, rfl⟩
  simp [turn, h]

theorem forfeited_turn_witness :
    movePossible blockedGame.Xturn 3 blockedGame.Xarray blockedGame.Oarray = false ∧
    ∃ g1, turn blockedGame 3 [1] = TurnResult.next g1 ∧
      g1.Xarray = blockedGame.Xarray ∧ g1.Oarray = blockedGame.Oarray ∧
      g1.history = blockedGame.history ∧ g1.gameOver = blockedGame.gameOver ∧
      g1.winner = blockedGame.winner ∧ g1.Xturn = ! blockedGame.Xturn :=
  ⟨by decide, forfeited_turn blockedGame 3 [1] (by decide)⟩

/-- C27.  Actual legality rule on board points: on a board with non-negative
counts, from a start holding at least one of the mover's checkers, and for a
destination point `d` in 1..16, `validMoveX` is true if and only if
`Oarray[d] <= 1`, and `validMoveO` is true if and only if `Xarray[d] <= 1`; the
result is the same for any other array of the mover that also has a checker at
the start, so the mover's own count on `d` plays no part. -/
theorem legality_on_points (start : Fin 18) (dest : Int) (Xarray Oarray : Arr)
    (hX : ∀ i, 0 ≤ Xarray i) (hO : ∀ i, 0 ≤ Oarray i) (hd : 1 ≤ dest ∧ dest ≤ 16) :
    (0 < Xarray start →
      (validMoveX start dest Xarray Oarray = true ↔ Oarray (idx dest) ≤ 1) ∧
      ∀ X2 : Arr, 0 < X2 start →
        validMoveX start dest X2 Oarray = validMoveX start dest Xarray Oarray) ∧
    (0 < Oarray start →
      (validMoveO start dest Xarray Oarray = true ↔ Xarray (idx dest) ≤ 1) ∧
      ∀ O2 : Arr, 0 < O2 start →
        validMoveO start dest Xarray O2 = validMoveO start dest Xarray Oarray) := by
  obtain ⟨d1, d16⟩ := hd
  have key : ∀ A B : Arr, (∀ i, 0 ≤ B i) → 0 < A start →
      (validMoveX start dest A B = true ↔ B (idx dest) ≤ 1) := by
    intro A B hB hs
    have h0 : A start ≠ 0 := by omega
    have hb : ¬ dest > 16 := by omega
    have hn := hB (idx dest)
    by_cases hle : B (idx dest) ≤ 1
    · have ho : B (idx dest) = 0 ∨ B (idx dest) = 1 := by omega
      simp [validMoveX, h0, hb, d1, d16, ho, hle]
    · have ho : ¬ (B (idx dest) = 0 ∨ B (idx dest) = 1) := by omega
      have hg : B (idx dest) > 1 := by omega
      simp [validMoveX, h0, hb, d1, d16, ho, hg, hle]
  have keyO : ∀ A B : Arr, (∀ i, 0 ≤ A i) → 0 < B start →
      (validMoveO start dest A B = true ↔ A (idx dest) ≤ 1) := by
    intro A B hA hs
    have h0 : B start ≠ 0 := by omega
    have hb : ¬ dest < 1 := by omega
    have hn := hA (idx dest)
    by_cases hle : A (idx dest) ≤ 1
    · have ho : A (idx dest) = 0 ∨ A (idx dest) = 1 := by omega
      simp [validMoveO, h0, hb, d1, d16, ho, hle]
    · have ho : ¬ (A (idx dest) = 0 ∨ A (idx dest) = 1) := by omega
      have hg : A (idx dest) > 1 := by omega
      simp [validMoveO, h0, hb, d1, d16, ho, hg, hle]
  constructor
  · intro hs
    refine ⟨key Xarray Oarray hO hs, ?_⟩
    intro X2 h2
    exact Bool.eq_iff_iff.2 ((key X2 Oarray hO h2).trans (key Xarray Oarray hO hs).symm)
  · intro hs
    refine ⟨keyO Xarray Oarray hX hs, ?_⟩
    intro O2 h2
    exact Bool.eq_iff_iff.2 ((keyO Xarray O2 hX h2).trans (keyO Xarray Oarray hX hs).symm)

theorem legality_on_points_witness :
    ((∀ i, 0 ≤ stackedX i) ∧ (∀ i, 0 ≤ stackedO i) ∧ 0 < stackedX 1 ∧ stackedX 3 = 5 ∧
      (validMoveX 1 3 stackedX stackedO = true ↔ stackedO (idx 3) ≤ 1) ∧
      validMoveX 1 3 stackedX stackedO = true) ∧
    (0 < stackedO 16 ∧ stackedO 14 = 5 ∧
      (validMoveO 16 14 stackedX stackedO = true ↔ stackedX (idx 14) ≤ 1)) :=
  have h := legality_on_points 1 3 stackedX stackedO (by decide) (by decide)
    ⟨by decide, by decide⟩
  have k := legality_on_points 16 14 stackedX stackedO (by decide) (by decide)
    ⟨by decide, by decide⟩
  ⟨⟨by decide, by decide, by decide, by decide, (h.1 (by decide)).1, by decide⟩,
   ⟨by decide, by decide, (k.2 (by decide)).1⟩⟩

/-- C28.  Seven checkers per side are conserved: the starting board gives X
5 checkers on point 1 and 2 on point 3, and O 2 checkers on point 14 and 5 on
point 16, 7 each by `countCheckers`; and in every reachable state
`countCheckers` of a side's array plus the number of bearing-off moves that side
has made equals 7. -/
theorem seven_checkers_conserved :
    (initial.Xarray 1 = 5 ∧ initial.Xarray 3 = 2 ∧
      (∀ i : Fin 18, i ≠ 1 → i ≠ 3 → initial.Xarray i = 0) ∧
      countCheckers initial.Xarray = 7) ∧
    (initial.Oarray 14 = 2 ∧ initial.Oarray 16 = 5 ∧
      (∀ i : Fin 18, i ≠ 14 → i ≠ 16 → initial.Oarray i = 0) ∧
      countCheckers initial.Oarray = 7) ∧
    ∀ g : Game, Reachable g →
      countCheckers g.Xarray + borneOff Side.X g = 7 ∧
      countCheckers g.Oarray + borneOff Side.O g = 7 := by
  refine ⟨⟨by decide, by decide, by decide, by decide⟩,
    ⟨by decide, by decide, by decide, by decide⟩, ?_⟩
  intro g hg
  exact ⟨(reachable_inv hg).totalX, (reachable_inv hg).totalO⟩

theorem seven_checkers_conserved_witness :
    Reachable (playD initial raceScript) ∧
    countCheckers (playD initial raceScript).Xarray = 0 ∧
    borneOff Side.X (playD initial raceScript) = 7 ∧
    countCheckers (playD initial raceScript).Oarray
      + borneOff Side.O (playD initial raceScript) = 7 :=
  have h := seven_checkers_conserved.2.2 (playD initial raceScript)
    (reachable_playD raceScript Reachable.start)
  ⟨reachable_playD raceScript Reachable.start, by decide, by decide, h.2⟩

theorem turn_mover {g g1 : Game} {roll : Int} {inputs : List Int} {m : Applied}
    (h : turn g roll inputs = TurnResult.next g1) (hm : g1.history = m :: g.history) :
    (g.Xturn = true → m.side = Side.X) ∧ (g.Xturn = false → m.side = Side.O) := by
  have cons_ne : ∀ (a : Applied) (l : List Applied), l ≠ a :: l := by
    intro a l e
    have := congrArg List.length e
    simp at this
  rcases turn_next h with ⟨_, e⟩ | ⟨_, _, hx, _, e⟩ | ⟨_, _, hx, _, e⟩ | ⟨_, _, t, _, _, _, hf⟩
  · subst e
    exact absurd hm (cons_ne m g.history)
  · subst e
    rw [afterMove_history] at hm
    have e2 : m = ⟨Side.X, 0, roll⟩ := (List.cons.inj hm).1.symm
    subst e2
    exact ⟨fun _ => rfl, fun hf => (by rw [hx] at hf; cases hf)⟩
  · subst e
    rw [afterMove_history] at hm
    have e2 : m = ⟨Side.O, 17, 17 - roll⟩ := (List.cons.inj hm).1.symm
    subst e2
    exact ⟨fun hf => (by rw [hx] at hf; cases hf), fun _ => rfl⟩
  · rcases hf with ⟨hx, _, e⟩ | ⟨hx, _, e⟩
    · subst e
      rw [afterMove_history] at hm
      have e2 : m = ⟨Side.X, idx t, t + roll⟩ := (List.cons.inj hm).1.symm
      subst e2
      exact ⟨fun _ => rfl, fun hf => (by rw [hx] at hf; cases hf)⟩
    · subst e
      rw [afterMove_history] at hm
      have e2 : m = ⟨Side.O, idx t, t - roll⟩ := (List.cons.inj hm).1.symm
      subst e2
      exact ⟨fun hf => (by rw [hx] at hf; cases hf), fun _ => rfl⟩

/-- C29.  A move never changes the opponent's total: for every board, start
and destination, `moveX` leaves `countCheckers(Oarray)` as it was and `moveO`
leaves `countCheckers(Xarray)` as it was; and in reachable play an iteration of
the game loop never announces the side that did not move as the winner. -/
theorem opponent_total_unchanged :
    (∀ (start : Fin 18) (dest : Int) (Xarray Oarray : Arr),
      countCheckers (moveX start dest Xarray Oarray).2 = countCheckers Oarray ∧
      countCheckers (moveO start dest Xarray Oarray).1 = countCheckers Xarray) ∧
    ∀ (g g1 : Game) (roll : Int) (inputs : List Int), Reachable g → g.gameOver = false →
      turn g roll inputs = TurnResult.next g1 →
      (g.Xturn = true → g1.winner ≠ some Side.O) ∧
      (g.Xturn = false → g1.winner ≠ some Side.X) := by
  refine ⟨fun start dest Xarray Oarray =>
    ⟨moveX_countO start dest Xarray Oarray, moveO_countX start dest Xarray Oarray⟩, ?_⟩
  intro g g1 roll inputs hg hgo ht
  constructor
  · intro hx hw
    obtain ⟨m, hm, hs, _⟩ := turn_winner (reachable_inv hg) hgo ht hw
    have := (turn_mover ht hm).1 hx
    rw [hs] at this
    cases this
  · intro hx hw
    obtain ⟨m, hm, hs, _⟩ := turn_winner (reachable_inv hg) hgo ht hw
    have := (turn_mover ht hm).2 hx
    rw [hs] at this
    cases this

theorem opponent_total_unchanged_witness :
    countCheckers (moveX 1 4 hitX hitO).2 = countCheckers hitO ∧
    (moveX 1 4 hitX hitO).2 ≠ hitO ∧
    (Reachable initial ∧ initial.gameOver = false ∧
      ∀ g1, turn initial 3 [1] = TurnResult.next g1 → g1.winner ≠ some Side.O) :=
  ⟨(opponent_total_unchanged.1 1 4 hitX hitO).1, by decide,
   ⟨Reachable.start, rfl, fun g1 h =>
     (opponent_total_unchanged.2 initial g1 3 [1] Reachable.start rfl h).1 rfl⟩⟩

end HalfGammon

namespace ConnectFour

/-! ## Dropping a piece -/

theorem boardSet_apply (board : Board) (r i : Fin 6) (c j : Fin 7) (v : Char) :
    (board.set r c v) i j = if i = r ∧ j = c then v else board i j := rfl

theorem makeMove_unfold (board : Board) (col : Fin 7) (player : Char) :
    makeMove board col player =
      if board 5 col = '-' then (5, board.set 5 col player)
      else if board 4 col = '-' then (4, board.set 4 col player)
      else if board 3 col = '-' then (3, board.set 3 col player)
      else if board 2 col = '-' then (2, board.set 2 col player)
      else if board 1 col = '-' then (1, board.set 1 col player)
      else if board 0 col = '-' then (0, board.set 0 col player)
      else (-1, board) := rfl

/-- C20.  `makeMove` on a column with space: when column `col` has at least
one cell holding `'-'`, `makeMove` returns the largest row index `r` whose cell
in that column holds `'-'`, writes `player` into exactly that cell and leaves
every other cell as it was. -/
theorem makeMove_open_column (board : Board) (col : Fin 7) (player : Char)
    (h : ∃ r : Fin 6, board r col = '-') :
    ∃ r : Fin 6, (makeMove board col player).1 = (r.val : Int) ∧
      board r col = '-' ∧ (∀ i : Fin 6, r < i → board i col ≠ '-') ∧
      (makeMove board col player).2 r col = player ∧
      ∀ (i : Fin 6) (j : Fin 7), ¬ (i = r ∧ j = col) →
        (makeMove board col player).2 i j = board i j := by
  rw [makeMove_unfold]
  by_cases h5 : board 5 col = '-'
  · refine ⟨5, by simp [h5]; rfl, h5, ?_, by simp [h5, boardSet_apply], ?_⟩
    · intro i hi
      fin_cases i <;> first | exact absurd hi (by decide)
    · intro i j hij
      simp [h5, boardSet_apply, hij]
  by_cases h4 : board 4 col = '-'
  · refine ⟨4, by simp [h5, h4]; rfl, h4, ?_, by simp [h5, h4, boardSet_apply], ?_⟩
    · intro i hi
      fin_cases i <;> first | exact h5 | exact absurd hi (by decide)
    · intro i j hij
      simp [h5, h4, boardSet_apply, hij]
  by_cases h3 : board 3 col = '-'
  · refine ⟨3, by simp [h5, h4, h3]; rfl, h3, ?_, by simp [h5, h4, h3, boardSet_apply], ?_⟩
    · intro i hi
      fin_cases i <;> first | exact h5 | exact h4 | exact absurd hi (by decide)
    · intro i j hij
      simp [h5, h4, h3, boardSet_apply, hij]
  by_cases h2 : board 2 col = '-'
  · refine ⟨2, by simp [h5, h4, h3, h2], h2, ?_,
      by simp [h5, h4, h3, h2, boardSet_apply], ?_⟩
    · intro i hi
      fin_cases i <;> first | exact h5 | exact h4 | exact h3 | exact absurd hi (by decide)
    · intro i j hij
      simp [h5, h4, h3, h2, boardSet_apply, hij]
  by_cases h1 : board 1 col = '-'
  · refine ⟨1, by simp [h5, h4, h3, h2, h1], h1, ?_,
      by simp [h5, h4, h3, h2, h1, boardSet_apply], ?_⟩
    · intro i hi
      fin_cases i <;>
        first | exact h5 | exact h4 | exact h3 | exact h2 | exact absurd hi (by decide)
    · intro i j hij
      simp [h5, h4, h3, h2, h1, boardSet_apply, hij]
  by_cases h0 : board 0 col = '-'
  · refine ⟨0, by simp [h5, h4, h3, h2, h1, h0], h0, ?_,
      by simp [h5, h4, h3, h2, h1, h0, boardSet_apply], ?_⟩
    · intro i hi
      fin_cases i <;>
        first | exact h5 | exact h4 | exact h3 | exact h2 | exact h1
              | exact absurd hi (by decide)
    · intro i j hij
      simp [h5, h4, h3, h2, h1, h0, boardSet_apply, hij]
  · exfalso
    obtain ⟨r, hr⟩ := h
    fin_cases r
    · exact h0 hr
    · exact h1 hr
    · exact h2 hr
    · exact h3 hr
    · exact h4 hr
    · exact h5 hr

theorem makeMove_open_column_witness :
    (∃ r : Fin 6, threeInRow r 3 = '-') ∧
    ∃ r : Fin 6, (makeMove threeInRow 3 'R').1 = (r.val : Int) ∧
      threeInRow r 3 = '-' ∧ (∀ i : Fin 6, r < i → threeInRow i 3 ≠ '-') ∧
      (makeMove threeInRow 3 'R').2 r 3 = 'R' ∧
      ∀ (i : Fin 6) (j : Fin 7), ¬ (i = r ∧ j = 3) →
        (makeMove threeInRow 3 'R').2 i j = threeInRow i j :=
  ⟨⟨5, by decide⟩, makeMove_open_column threeInRow 3 'R' ⟨5, by decide⟩⟩

/-! ## The counting loops of `checkWin` -/

theorem countLoop_acc (board : Board) (player : Char) (guard : Int → Int → Bool)
    (dr dc : Int) :
    ∀ (fuel : Nat) (r c count : Int),
      countLoop board player guard dr dc fuel r c count =
        count + countLoop board player guard dr dc fuel r c 0 := by
  intro fuel
  induction fuel with
  | zero => intro r c count; simp [countLoop]
  | succ f ih =>
    intro r c count
    simp only [countLoop]
    split_ifs
    · rw [ih (r + dr) (c + dc) (count + 1), ih (r + dr) (c + dc) (0 + 1)]
      ring
    · ring

theorem countLoop_nonneg (board : Board) (player : Char) (guard : Int → Int → Bool)
    (dr dc : Int) :
    ∀ (fuel : Nat) (r c : Int), 0 ≤ countLoop board player guard dr dc fuel r c 0 := by
  intro fuel
  induction fuel with
  | zero => intro r c; simp [countLoop]
  | succ f ih =>
    intro r c
    simp only [countLoop]
    split_ifs
    · rw [countLoop_acc]
      have := ih (r + dr) (c + dc)
      omega
    · exact le_refl 0

theorem countLoop_ge_iff (board : Board) (player : Char) (guard : Int → Int → Bool)
    (dr dc : Int) :
    ∀ (fuel n : Nat) (r c : Int), n ≤ fuel →
      ((n : Int) ≤ countLoop board player guard dr dc fuel r c 0 ↔
        ∀ t : Nat, t < n →
          guard (r + t * dr) (c + t * dc) = true ∧
          board.cell (r + t * dr) (c + t * dc) = player) := by
  intro fuel
  induction fuel with
  | zero =>
    intro n r c hn
    have : n = 0 := by omega
    subst this
    simp [countLoop]
  | succ f ih =>
    intro n r c hn
    cases n with
    | zero =>
      have := countLoop_nonneg board player guard dr dc (f + 1) r c
      simp
      exact this
    | succ m =>
      have hm : m ≤ f := by omega
      have ihm := ih m (r + dr) (c + dc) hm
      simp only [countLoop]
      by_cases hok : guard r c = true ∧ board.cell r c = player
      · rw [if_pos hok, countLoop_acc]
        constructor
        · intro hle t ht
          cases t with
          | zero => simpa using hok
          | succ s =>
            have hs := (ihm.1 (by push_cast at hle ⊢; omega)) s (by omega)
            have e1 : r + ((s + 1 : Nat) : Int) * dr = r + dr + (s : Int) * dr := by
              push_cast; ring
            have e2 : c + ((s + 1 : Nat) : Int) * dc = c + dc + (s : Int) * dc := by
              push_cast; ring
            rw [e1, e2]
            exact hs
        · intro hall
          have h2 : (m : Int) ≤ countLoop board player guard dr dc f (r + dr) (c + dc) 0 := by
            apply ihm.2
            intro t ht
            have hs := hall (t + 1) (by omega)
            have e1 : r + ((t + 1 : Nat) : Int) * dr = r + dr + (t : Int) * dr := by
              push_cast; ring
            have e2 : c + ((t + 1 : Nat) : Int) * dc = c + dc + (t : Int) * dc := by
              push_cast; ring
            rw [e1, e2] at hs
            exact hs
          push_cast
          omega
      · rw [if_neg hok]
        constructor
        · intro hle
          push_cast at hle
          omega
        · intro hall
          exfalso
          apply hok
          simpa using hall 0 (by omega)

theorem line_count_iff (P : Int → Prop) (a b : Int) (h0 : P 0) (ha : 0 ≤ a) (hb : 0 ≤ b)
    (hA : ∀ n : Nat, n ≤ 3 → ((n : Int) ≤ a ↔ ∀ t : Nat, t < n → P (-1 - (t : Int))))
    (hB : ∀ n : Nat, n ≤ 3 → ((n : Int) ≤ b ↔ ∀ t : Nat, t < n → P (1 + (t : Int)))) :
    1 + a + b ≥ 4 ↔ ∃ j : Nat, j ≤ 3 ∧ ∀ t : Nat, t ≤ 3 → P ((t : Int) - j) := by
  constructor
  · intro hsum
    have key : ∀ j : Nat, j ≤ 3 → (j : Int) ≤ a → ((3 - j : Nat) : Int) ≤ b →
        ∀ t : Nat, t ≤ 3 → P ((t : Int) - j) := by
      intro j hj hja hjb t ht
      rcases Nat.lt_trichotomy t j with hlt | heq | hgt
      · have := (hA j hj).1 hja (j - t - 1) (by omega)
        have e : (t : Int) - j = -1 - ((j - t - 1 : Nat) : Int) := by omega
        rw [e]
        exact this
      · subst heq
        simpa using h0
      · have := (hB (3 - j) (by omega)).1 hjb (t - j - 1) (by omega)
        have e : (t : Int) - j = 1 + ((t - j - 1 : Nat) : Int) := by omega
        rw [e]
        exact this
    by_cases h3 : 3 ≤ a
    · exact ⟨3, le_refl 3, key 3 (le_refl 3) (by simpa using h3) (by simpa using hb)⟩
    · refine ⟨a.toNat, by omega, key a.toNat (by omega) (by omega) (by omega)⟩
  · rintro ⟨j, hj, hw⟩
    have h1 : (j : Int) ≤ a := by
      apply (hA j hj).2
      intro t ht
      have := hw (j - t - 1) (by omega)
      have e : ((j - t - 1 : Nat) : Int) - j = -1 - (t : Int) := by omega
      rw [e] at this
      exact this
    have h2 : ((3 - j : Nat) : Int) ≤ b := by
      apply (hB (3 - j) (by omega)).2
      intro t ht
      have := hw (j + t + 1) (by omega)
      have e : ((j + t + 1 : Nat) : Int) - j = 1 + (t : Int) := by omega
      rw [e] at this
      exact this
    omega

theorem rowIdx_cast (row : Fin 6) : rowIdx (row.val : Int) = row := by
  apply Fin.ext
  simp [rowIdx, Nat.mod_eq_of_lt row.isLt]

theorem colIdx_cast (col : Fin 7) : colIdx (col.val : Int) = col := by
  apply Fin.ext
  simp [colIdx, Nat.mod_eq_of_lt col.isLt]

theorem rowIdx_val {r : Int} (h0 : 0 ≤ r) (h5 : r ≤ 5) : ((rowIdx r).val : Int) = r := by
  have h : r.toNat < 6 := by omega
  simp only [rowIdx, Nat.mod_eq_of_lt h]
  omega

theorem two_sided_count (board : Board) (player : Char) (r c dr dc : Int) (fuel : Nat)
    (hf : 3 ≤ fuel) (h0 : HoldsAt board player r c dr dc 0)
    (gB gF : Int → Int → Bool) (rB cB drB dcB rF cF drF dcF : Int)
    (hB : ∀ t : Nat,
      (rB + (t : Int) * drB = r + (-1 - (t : Int)) * dr ∧
        cB + (t : Int) * dcB = c + (-1 - (t : Int)) * dc) ∧
      (gB (r + (-1 - (t : Int)) * dr) (c + (-1 - (t : Int)) * dc) = true ↔
        inGrid (r + (-1 - (t : Int)) * dr) (c + (-1 - (t : Int)) * dc)))
    (hF : ∀ t : Nat,
      (rF + (t : Int) * drF = r + (1 + (t : Int)) * dr ∧
        cF + (t : Int) * dcF = c + (1 + (t : Int)) * dc) ∧
      (gF (r + (1 + (t : Int)) * dr) (c + (1 + (t : Int)) * dc) = true ↔
        inGrid (r + (1 + (t : Int)) * dr) (c + (1 + (t : Int)) * dc))) :
    countLoop board player gF drF dcF fuel rF cF
        (countLoop board player gB drB dcB fuel rB cB 1) ≥ 4 ↔
      FourAlong board player r c dr dc := by
  rw [countLoop_acc board player gF, countLoop_acc board player gB]
  apply line_count_iff (HoldsAt board player r c dr dc) _ _ h0
    (countLoop_nonneg board player gB drB dcB fuel rB cB)
    (countLoop_nonneg board player gF drF dcF fuel rF cF)
  · intro n hn
    rw [countLoop_ge_iff board player gB drB dcB fuel n rB cB (by omega)]
    constructor
    · intro h t ht
      obtain ⟨g, cl⟩ := h t ht
      obtain ⟨⟨e1, e2⟩, gi⟩ := hB t
      rw [e1, e2] at g cl
      exact ⟨gi.1 g, cl⟩
    · intro h t ht
      obtain ⟨g, cl⟩ := h t ht
      obtain ⟨⟨e1, e2⟩, gi⟩ := hB t
      rw [e1, e2]
      exact ⟨gi.2 g, cl⟩
  · intro n hn
    rw [countLoop_ge_iff board player gF drF dcF fuel n rF cF (by omega)]
    constructor
    · intro h t ht
      obtain ⟨g, cl⟩ := h t ht
      obtain ⟨⟨e1, e2⟩, gi⟩ := hF t
      rw [e1, e2] at g cl
      exact ⟨gi.1 g, cl⟩
    · intro h t ht
      obtain ⟨g, cl⟩ := h t ht
      obtain ⟨⟨e1, e2⟩, gi⟩ := hF t
      rw [e1, e2]
      exact ⟨gi.2 g, cl⟩

theorem one_sided_count (board : Board) (player : Char) (r c dr dc : Int) (fuel : Nat)
    (hf : 3 ≤ fuel) (h0 : HoldsAt board player r c dr dc 0)
    (hno : ¬ HoldsAt board player r c dr dc (-1))
    (gF : Int → Int → Bool) (rF cF drF dcF : Int)
    (hF : ∀ t : Nat,
      (rF + (t : Int) * drF = r + (1 + (t : Int)) * dr ∧
        cF + (t : Int) * dcF = c + (1 + (t : Int)) * dc) ∧
      (gF (r + (1 + (t : Int)) * dr) (c + (1 + (t : Int)) * dc) = true ↔
        inGrid (r + (1 + (t : Int)) * dr) (c + (1 + (t : Int)) * dc))) :
    countLoop board player gF drF dcF fuel rF cF 1 ≥ 4 ↔
      FourAlong board player r c dr dc := by
  rw [countLoop_acc board player gF]
  have e : 1 + countLoop board player gF drF dcF fuel rF cF 0 =
      1 + 0 + countLoop board player gF drF dcF fuel rF cF 0 := by ring
  rw [e]
  apply line_count_iff (HoldsAt board player r c dr dc) _ _ h0 (le_refl 0)
    (countLoop_nonneg board player gF drF dcF fuel rF cF)
  · intro n hn
    constructor
    · intro h t ht
      have : n = 0 := by omega
      omega
    · intro h
      by_contra hc
      have h1 := h 0 (by omega)
      apply hno
      simpa using h1
  · intro n hn
    rw [countLoop_ge_iff board player gF drF dcF fuel n rF cF (by omega)]
    constructor
    · intro h t ht
      obtain ⟨g, cl⟩ := h t ht
      obtain ⟨⟨e1, e2⟩, gi⟩ := hF t
      rw [e1, e2] at g cl
      exact ⟨gi.1 g, cl⟩
    · intro h t ht
      obtain ⟨g, cl⟩ := h t ht
      obtain ⟨⟨e1, e2⟩, gi⟩ := hF t
      rw [e1, e2]
      exact ⟨gi.2 g, cl⟩

theorem checkWinFuel_iff (fuel : Nat) (hf : 3 ≤ fuel) (board : Board) (row : Fin 6)
    (col : Fin 7) (player : Char) (hcell : board row col = player)
    (habove : ∀ i : Fin 6, i < row → board i col ≠ player) :
    checkWinFuel fuel board row col player = true ↔ FourInLine board player row col := by
  have r0 : (0 : Int) ≤ (row.val : Int) := by omega
  have r5 : (row.val : Int) ≤ 5 := by have := row.isLt; omega
  have c0 : (0 : Int) ≤ (col.val : Int) := by omega
  have c6 : (col.val : Int) ≤ 6 := by have := col.isLt; omega
  have h0 : ∀ dr dc : Int, HoldsAt board player row.val col.val dr dc 0 := by
    intro dr dc
    simp only [HoldsAt, inGrid, zero_mul, add_zero, Board.cell, rowIdx_cast, colIdx_cast]
    exact ⟨⟨r0, r5, c0, c6⟩, hcell⟩
  have hno : ¬ HoldsAt board player row.val col.val 1 0 (-1) := by
    rintro ⟨⟨a, _, _, _⟩, hc⟩
    have e1 : (row.val : Int) + -1 * 1 = (row.val : Int) - 1 := by ring
    have e2 : (col.val : Int) + -1 * 0 = (col.val : Int) := by ring
    rw [e1, e2] at hc
    rw [e1] at a
    simp only [Board.cell, colIdx_cast] at hc
    have hv := rowIdx_val a (by omega)
    have hlt : rowIdx ((row.val : Int) - 1) < row := by
      rw [Fin.lt_def]
      omega
    exact habove _ hlt hc
  have H := two_sided_count board player row.val col.val 0 1 fuel hf (h0 0 1)
    (fun _ cc => decide (cc ≥ 0)) (fun _ cc => decide (cc ≤ 6))
    row.val ((col.val : Int) - 1) 0 (-1) row.val ((col.val : Int) + 1) 0 1
    (by
      intro t
      refine ⟨⟨by ring, by ring⟩, ?_⟩
      simp only [inGrid, decide_eq_true_eq]
      omega)
    (by
      intro t
      refine ⟨⟨by ring, by ring⟩, ?_⟩
      simp only [inGrid, decide_eq_true_eq]
      omega)
  have V := one_sided_count board player row.val col.val 1 0 fuel hf (h0 1 0) hno
    (fun rr _ => decide (rr ≤ 5)) ((row.val : Int) + 1) col.val 1 0
    (by
      intro t
      refine ⟨⟨by ring, by ring⟩, ?_⟩
      simp only [inGrid, decide_eq_true_eq]
      omega)
  have D1 := two_sided_count board player row.val col.val 1 1 fuel hf (h0 1 1)
    (fun rr cc => decide (rr ≥ 0 ∧ cc ≥ 0)) (fun rr cc => decide (rr ≤ 5 ∧ cc ≤ 6))
    ((row.val : Int) - 1) ((col.val : Int) - 1) (-1) (-1)
    ((row.val : Int) + 1) ((col.val : Int) + 1) 1 1
    (by
      intro t
      refine ⟨⟨by ring, by ring⟩, ?_⟩
      simp only [inGrid, decide_eq_true_eq]
      omega)
    (by
      intro t
      refine ⟨⟨by ring, by ring⟩, ?_⟩
      simp only [inGrid, decide_eq_true_eq]
      omega)
  have D2 := two_sided_count board player row.val col.val (-1) 1 fuel hf (h0 (-1) 1)
    (fun rr cc => decide (rr < 6 ∧ cc ≥ 0)) (fun rr cc => decide (rr ≥ 0 ∧ cc < 7))
    ((row.val : Int) + 1) ((col.val : Int) - 1) 1 (-1)
    ((row.val : Int) - 1) ((col.val : Int) + 1) (-1) 1
    (by
      intro t
      refine ⟨⟨by ring, by ring⟩, ?_⟩
      simp only [inGrid, decide_eq_true_eq]
      omega)
    (by
      intro t
      refine ⟨⟨by ring, by ring⟩, ?_⟩
      simp only [inGrid, decide_eq_true_eq]
      omega)
  unfold FourInLine
  rw [← H, ← V, ← D1, ← D2]
  simp only [checkWinFuel]
  split_ifs with k1 k2 k3 k4
  · exact ⟨fun _ => Or.inl k1, fun _ => rfl⟩
  · exact ⟨fun _ => Or.inr (Or.inl k2), fun _ => rfl⟩
  · exact ⟨fun _ => Or.inr (Or.inr (Or.inl k3)), fun _ => rfl⟩
  · exact ⟨fun _ => Or.inr (Or.inr (Or.inr k4)), fun _ => rfl⟩
  · constructor
    · intro h
      cases h
    · rintro (h | h | h | h)
      · exact absurd h k1
      · exact absurd h k2
      · exact absurd h k3
      · exact absurd h k4

/-- C19.  Connect Four win check: for every board, player character and cell
`(row, col)` that holds `player` with no piece of `player` above it in column
`col`, `checkWin` returns true if and only if four consecutive cells of one
horizontal, vertical or diagonal line (either diagonal direction) that include
`(row, col)` all hold `player`; and allowing the loops more than 7 iterations
does not change the result. -/
theorem checkWin_correct (board : Board) (row : Fin 6) (col : Fin 7) (player : Char)
    (hcell : board row col = player)
    (habove : ∀ i : Fin 6, i < row → board i col ≠ player) :
    (checkWin board row col player = true ↔ FourInLine board player row col) ∧
    ∀ fuel : Nat, 7 ≤ fuel →
      checkWinFuel fuel board row col player = checkWin board row col player := by
  have h7 := checkWinFuel_iff 7 (by decide) board row col player hcell habove
  refine ⟨h7, ?_⟩
  intro fuel hf
  have hfuel := checkWinFuel_iff fuel (by omega) board row col player hcell habove
  exact Bool.eq_iff_iff.2 (hfuel.trans h7.symm)

theorem checkWin_correct_witness :
    (makeMove threeInRow 3 'R').2 5 3 = 'R' ∧
    (∀ i : Fin 6, i < 5 → (makeMove threeInRow 3 'R').2 i 3 ≠ 'R') ∧
    checkWin (makeMove threeInRow 3 'R').2 5 3 'R' = true ∧
    FourInLine (makeMove threeInRow 3 'R').2 'R' 5 3 ∧
    checkWin (makeMove threeInRow 4 'R').2 5 4 'R' = false ∧
    ¬ FourInLine (makeMove threeInRow 4 'R').2 'R' 5 4 :=
  have h1 := (checkWin_correct (makeMove threeInRow 3 'R').2 5 3 'R' (by decide)
    (by decide)).1
  have h2 := (checkWin_correct (makeMove threeInRow 4 'R').2 5 4 'R' (by decide)
    (by decide)).1
  ⟨by decide, by decide, by decide, h1.1 (by decide), by decide,
    fun h => absurd (h2.2 h) (by decide)⟩

/-! ## Full columns and the tie check -/

theorem makeMove_cases (board : Board) (col : Fin 7) (player : Char) :
    (∃ k : Fin 6, board k col = '-' ∧ (∀ i : Fin 6, k < i → board i col ≠ '-') ∧
      makeMove board col player = ((k.val : Int), board.set k col player)) ∨
    ((∀ r : Fin 6, board r col ≠ '-') ∧ makeMove board col player = (-1, board)) := by
  rw [makeMove_unfold]
  by_cases h5 : board 5 col = '-'
  · refine Or.inl ⟨5, h5, ?_, by rw [if_pos h5]; rfl⟩
    intro i hi
    fin_cases i <;> first | exact absurd hi (by decide)
  by_cases h4 : board 4 col = '-'
  · refine Or.inl ⟨4, h4, ?_, by rw [if_neg h5, if_pos h4]; rfl⟩
    intro i hi
    fin_cases i <;> first | exact h5 | exact absurd hi (by decide)
  by_cases h3 : board 3 col = '-'
  · refine Or.inl ⟨3, h3, ?_, by rw [if_neg h5, if_neg h4, if_pos h3]; rfl⟩
    intro i hi
    fin_cases i <;> first | exact h5 | exact h4 | exact absurd hi (by decide)
  by_cases h2 : board 2 col = '-'
  · refine Or.inl ⟨2, h2, ?_, by rw [if_neg h5, if_neg h4, if_neg h3, if_pos h2]; rfl⟩
    intro i hi
    fin_cases i <;> first | exact h5 | exact h4 | exact h3 | exact absurd hi (by decide)
  by_cases h1 : board 1 col = '-'
  · refine Or.inl ⟨1, h1, ?_,
      by rw [if_neg h5, if_neg h4, if_neg h3, if_neg h2, if_pos h1]; rfl⟩
    intro i hi
    fin_cases i <;>
      first | exact h5 | exact h4 | exact h3 | exact h2 | exact absurd hi (by decide)
  by_cases h0 : board 0 col = '-'
  · refine Or.inl ⟨0, h0, ?_,
      by rw [if_neg h5, if_neg h4, if_neg h3, if_neg h2, if_neg h1, if_pos h0]; rfl⟩
    intro i hi
    fin_cases i <;>
      first | exact h5 | exact h4 | exact h3 | exact h2 | exact h1
            | exact absurd hi (by decide)
  · refine Or.inr ⟨?_, by rw [if_neg h5, if_neg h4, if_neg h3, if_neg h2, if_neg h1,
      if_neg h0]⟩
    intro r
    fin_cases r
    · exact h0
    · exact h1
    · exact h2
    · exact h3
    · exact h4
    · exact h5

/-- C21.  `makeMove` on a full column: `makeMove` returns -1 if and only if no
cell of column `col` holds `'-'`, and when it returns -1 the board is left
exactly as it was. -/
theorem makeMove_full_column (board : Board) (col : Fin 7) (player : Char) :
    ((makeMove board col player).1 = -1 ↔ ∀ r : Fin 6, board r col ≠ '-') ∧
    ((makeMove board col player).1 = -1 → (makeMove board col player).2 = board) := by
  rcases makeMove_cases board col player with ⟨k, hk, _, e⟩ | ⟨hfull, e⟩
  · rw [e]
    have hne : ((k.val : Int)) ≠ -1 := by omega
    refine ⟨⟨fun h => absurd h hne, fun h => absurd hk (h k)⟩, fun h => absurd h hne⟩
  · rw [e]
    exact ⟨⟨fun _ => hfull, fun _ => rfl⟩, fun _ => rfl⟩

theorem makeMove_full_column_witness :
    (makeMove fullBoard 3 'R').1 = -1 ∧ (∀ r : Fin 6, fullBoard r 3 ≠ '-') ∧
    (makeMove fullBoard 3 'R').2 = fullBoard ∧ (makeMove threeInRow 3 'R').1 ≠ -1 :=
  have h := makeMove_full_column fullBoard 3 'R'
  have k := makeMove_full_column threeInRow 3 'R'
  ⟨by decide, h.1.1 (by decide), h.2 (by decide),
    fun e => absurd (k.1.1 e 5) (by decide)⟩

theorem settled_set {board : Board} {k : Fin 6} {col : Fin 7} (player : Char)
    (hs : Settled board) (hk : board k col = '-')
    (hbelow : ∀ i : Fin 6, k < i → board i col ≠ '-') :
    Settled (board.set k col player) := by
  intro c r i hri hr
  simp only [boardSet_apply] at hr ⊢
  by_cases hc : c = col
  · subst hc
    by_cases hik : i = k
    · subst hik
      have hrk : r ≠ i := ne_of_lt hri
      simp only [hrk, false_and, if_false] at hr
      exact absurd hk (hs c r i hri hr)
    · simp only [hik, false_and, if_false]
      by_cases hrk : r = k
      · subst hrk
        exact hbelow i hri
      · simp only [hrk, false_and, if_false] at hr
        exact hs c r i hri hr
  · simp only [hc, and_false, if_false] at hr ⊢
    exact hs c r i hri hr

theorem makeMove_settled {board : Board} (col : Fin 7) (player : Char)
    (hs : Settled board) : Settled (makeMove board col player).2 := by
  rcases makeMove_cases board col player with ⟨k, hk, hbelow, e⟩ | ⟨_, e⟩
  · rw [e]
    exact settled_set player hs hk hbelow
  · rw [e]
    exact hs

theorem dropped_settled {board : Board} (h : Dropped board) : Settled board := by
  induction h with
  | start =>
    intro c r i _ hr
    exact absurd rfl hr
  | drop col player _ _ ih => exact makeMove_settled col player ih

theorem checkTie_iff (board : Board) :
    checkTie board = true ↔ ∀ c : Fin 7, board 0 c ≠ '-' := by
  constructor
  · intro h c
    simp only [checkTie, checkTieLoop] at h
    split_ifs at h with h0 h1 h2 h3 h4 h5 h6
    fin_cases c
    · exact h0
    · exact h1
    · exact h2
    · exact h3
    · exact h4
    · exact h5
    · exact h6
  · intro h
    simp [checkTie, checkTieLoop, h 0, h 1, h 2, h 3, h 4, h 5, h 6]

/-- C22.  Connect Four tie check: on every board reachable from the empty
board by successful `makeMove` calls, `checkTie` returns true if and only if no
cell of the 6 rows and 7 columns holds `'-'`. -/
theorem checkTie_full_board (board : Board) (h : Dropped board) :
    checkTie board = true ↔ ∀ (r : Fin 6) (c : Fin 7), board r c ≠ '-' := by
  rw [checkTie_iff]
  constructor
  · intro htop r c
    by_cases hr : r = 0
    · subst hr
      exact htop c
    · have hlt : (0 : Fin 6) < r := by
        rw [Fin.lt_def]
        have : r.val ≠ 0 := fun e => hr (Fin.ext e)
        simp
        omega
      exact dropped_settled h c 0 r hlt (htop c)
  · intro hall c
    exact hall 0 c

theorem dropAll_dropped (drops : List (Fin 7 × Char)) :
    ∀ board : Board, Dropped board →
      (∀ d ∈ drops, d.2 ≠ '-') → Dropped (dropAll board drops) := by
  induction drops with
  | nil => intro board h _; exact h
  | cons d rest ih =>
    intro board h hp
    obtain ⟨col, player⟩ := d
    simp only [dropAll]
    rcases makeMove_cases board col player with ⟨k, hk, _, e⟩ | ⟨_, e⟩
    · apply ih
      · apply Dropped.drop col player h
        rw [e]
        show (k.val : Int) ≠ -1
        omega
      · intro d hd
        exact hp d (List.mem_cons_of_mem _ hd)
    · rw [e]
      apply ih _ h
      intro d hd
      exact hp d (List.mem_cons_of_mem _ hd)

set_option maxRecDepth 100000 in
theorem checkTie_full_board_witness :
    (Dropped threeInRow ∧ checkTie threeInRow = false ∧
      (checkTie threeInRow = true ↔ ∀ (r : Fin 6) (c : Fin 7), threeInRow r c ≠ '-')) ∧
    (Dropped (dropAll emptyBoard fullDrops) ∧
      checkTie (dropAll emptyBoard fullDrops) = true ∧
      ∀ (r : Fin 6) (c : Fin 7), dropAll emptyBoard fullDrops r c ≠ '-') :=
  ⟨⟨dropAll_dropped sixDrops emptyBoard Dropped.start (by decide), by decide,
    checkTie_full_board threeInRow
      (dropAll_dropped sixDrops emptyBoard Dropped.start (by decide))⟩,
   ⟨dropAll_dropped fullDrops emptyBoard Dropped.start (by decide), by decide,
    (checkTie_full_board (dropAll emptyBoard fullDrops)
      (dropAll_dropped fullDrops emptyBoard Dropped.start (by decide))).1 (by decide)⟩⟩

end ConnectFour

namespace PegGame

/-! ## Letters, holes and the geometry of a jump -/

theorem holeOf_letter : ∀ i : Fin 15, holeOf (letter i) = some i := by decide

theorem holeOf_some {c : Char} {i : Fin 15} (h : holeOf c = some i) : c = letter i := by
  unfold holeOf at h
  split at h <;> first | (cases h; rfl) | cases h

theorem getPeg_letter (s : State) (i : Fin 15) : getPeg s (letter i) = s.hole i := by
  simp [getPeg, holeOf_letter]

theorem getPeg_hole {s : State} {c : Char} (hi : s.invalid = '?') (h : getPeg s c ≠ '?') :
    ∃ i : Fin 15, c = letter i := by
  cases hc : holeOf c with
  | none =>
    exfalso
    apply h
    simp [getPeg, hc, hi]
  | some i => exact ⟨i, holeOf_some hc⟩

theorem geometryOK_iff_jump :
    ∀ i j k : Fin 15, geometryOK (letter i) (letter j) (letter k) = true ↔ Jump i j k := by
  decide

theorem jump_distinct : ∀ i j k : Fin 15, Jump i j k → i ≠ j ∧ j ≠ k ∧ i ≠ k := by
  decide

theorem isValid_split (s : State) (frm over dest : Char) :
    isValid s frm over dest = true ↔
      (getPeg s frm ≠ '?' ∧ getPeg s over ≠ '?' ∧ getPeg s dest ≠ '?') ∧
      geometryOK frm over dest = true ∧
      (getPeg s frm = 'T' ∧ getPeg s over = 'T' ∧ getPeg s dest ≠ 'T') := by
  simp only [isValid, geometryOK]
  split_ifs <;> simp_all <;> tauto

/-- C23.  Peg solitaire move validity.  On every board whose holes each hold
a peg `'T'` or are empty `'.'` (with `invalid` of `getPeg` at its initial
`'?'`), `isValid` returns true if and only if the three characters are letters
of holes `A` .. `O`, the holes of `frm` and `over` hold a peg, the hole of
`dest` is empty, and the three holes are consecutive along one line of the
board with `over` in the middle (`Jump`).  The letters of the holes are
`A` .. `O`; the documented examples FCA, DEF, JFC and ACF pass the geometric
tests, FCA is accepted on the initial board, and KHF fails the geometric tests
and is rejected on every board. -/
theorem isValid_spec :
    (∀ (s : State) (frm over dest : Char), WellFormed s →
      (isValid s frm over dest = true ↔
        ∃ i j k : Fin 15, frm = letter i ∧ over = letter j ∧ dest = letter k ∧
          s.hole i = 'T' ∧ s.hole j = 'T' ∧ s.hole k = '.' ∧ Jump i j k)) ∧
    (List.finRange 15).map letter =
      ['A', 'B', 'C', 'D', 'E', 'F', 'G', 'H', 'I', 'J', 'K', 'L', 'M', 'N', 'O'] ∧
    (Jump 5 2 0 ∧ Jump 3 4 5 ∧ Jump 9 5 2 ∧ Jump 0 2 5 ∧ ¬ Jump 10 7 5) ∧
    (geometryOK 'F' 'C' 'A' = true ∧ geometryOK 'D' 'E' 'F' = true ∧
      geometryOK 'J' 'F' 'C' = true ∧ geometryOK 'A' 'C' 'F' = true ∧
      geometryOK 'K' 'H' 'F' = false) ∧
    isValid initial 'F' 'C' 'A' = true ∧
    ∀ s : State, isValid s 'K' 'H' 'F' = false := by
  refine ⟨?_, by decide, by decide, by decide, by decide, ?_⟩
  · intro s frm over dest hw
    obtain ⟨hh, hi⟩ := hw
    rw [isValid_split]
    constructor
    · rintro ⟨⟨q1, q2, q3⟩, hg, t1, t2, t3⟩
      obtain ⟨i, ei⟩ := getPeg_hole hi q1
      obtain ⟨j, ej⟩ := getPeg_hole hi q2
      obtain ⟨k, ek⟩ := getPeg_hole hi q3
      subst ei ej ek
      rw [getPeg_letter] at t1 t2 t3
      refine ⟨i, j, k, rfl, rfl, rfl, t1, t2, ?_, (geometryOK_iff_jump i j k).1 hg⟩
      rcases hh k with h | h
      · exact absurd h t3
      · exact h
    · rintro ⟨i, j, k, ei, ej, ek, t1, t2, t3, hj⟩
      subst ei ej ek
      rw [getPeg_letter, getPeg_letter, getPeg_letter, t1, t2, t3]
      exact ⟨⟨by decide, by decide, by decide⟩, (geometryOK_iff_jump i j k).2 hj,
        rfl, rfl, by decide⟩
  · intro s
    cases h : isValid s 'K' 'H' 'F' with
    | false => rfl
    | true =>
      have := ((isValid_split s 'K' 'H' 'F').1 h).2.1
      exact absurd this (by decide)

theorem initial_wellFormed : WellFormed initial := by
  constructor
  · decide
  · rfl

theorem isValid_spec_witness :
    WellFormed initial ∧
    (isValid initial 'F' 'C' 'A' = true ↔
      ∃ i j k : Fin 15, 'F' = letter i ∧ 'C' = letter j ∧ 'A' = letter k ∧
        initial.hole i = 'T' ∧ initial.hole j = 'T' ∧ initial.hole k = '.' ∧ Jump i j k) ∧
    isValid initial 'A' 'C' 'F' = false :=
  ⟨initial_wellFormed, isValid_spec.1 initial 'F' 'C' 'A' initial_wellFormed, by decide⟩

/-! ## The board update and the peg count -/

theorem pegsOn_unfold (h : Fin 15 → Char) :
    pegsOn h =
      (if h 0 = 'T' then 1 else 0) + ((if h 1 = 'T' then 1 else 0) +
      ((if h 2 = 'T' then 1 else 0) + ((if h 3 = 'T' then 1 else 0) +
      ((if h 4 = 'T' then 1 else 0) + ((if h 5 = 'T' then 1 else 0) +
      ((if h 6 = 'T' then 1 else 0) + ((if h 7 = 'T' then 1 else 0) +
      ((if h 8 = 'T' then 1 else 0) + ((if h 9 = 'T' then 1 else 0) +
      ((if h 10 = 'T' then 1 else 0) + ((if h 11 = 'T' then 1 else 0) +
      ((if h 12 = 'T' then 1 else 0) + ((if h 13 = 'T' then 1 else 0) +
      ((if h 14 = 'T' then 1 else 0) + 0)))))))))))))) := rfl

theorem pegsOn_set (h : Fin 15 → Char) (i : Fin 15) (v : Char) :
    pegsOn (fun x => if x = i then v else h x) =
      pegsOn h - (if h i = 'T' then 1 else 0) + (if v = 'T' then 1 else 0) := by
  rw [pegsOn_unfold, pegsOn_unfold]
  fin_cases i <;> simp <;> ring

theorem isValid_holes {s : State} (hw : WellFormed s) {frm over dest : Char}
    (hv : isValid s frm over dest = true) :
    ∃ i j k : Fin 15, frm = letter i ∧ over = letter j ∧ dest = letter k ∧
      (i ≠ j ∧ j ≠ k ∧ i ≠ k) ∧
      s.hole i = 'T' ∧ s.hole j = 'T' ∧ s.hole k = '.' ∧ Jump i j k := by
  obtain ⟨hh, hi⟩ := hw
  obtain ⟨⟨q1, q2, q3⟩, hg, t1, t2, t3⟩ := (isValid_split s frm over dest).1 hv
  obtain ⟨i, ei⟩ := getPeg_hole hi q1
  obtain ⟨j, ej⟩ := getPeg_hole hi q2
  obtain ⟨k, ek⟩ := getPeg_hole hi q3
  subst ei ej ek
  rw [getPeg_letter] at t1 t2 t3
  have hj := (geometryOK_iff_jump i j k).1 hg
  refine ⟨i, j, k, rfl, rfl, rfl, jump_distinct i j k hj, t1, t2, ?_, hj⟩
  rcases hh k with h | h
  · exact absurd h t3
  · exact h

theorem updateBoard_letters (s : State) (i j k : Fin 15) :
    updateBoard s (letter i) (letter j) (letter k) =
      { hole := fun x => if x = k then 'T' else if x = j then '.' else
          if x = i then '.' else s.hole x,
        invalid := s.invalid, pegCount := s.pegCount - 1 } := by
  simp [updateBoard, setPeg, holeOf_letter]

theorem updateBoard_pegsOn (s : State) {i j k : Fin 15} (hd : i ≠ j ∧ j ≠ k ∧ i ≠ k)
    (hi : s.hole i = 'T') (hj : s.hole j = 'T') (hk : s.hole k = '.') :
    pegsOn (updateBoard s (letter i) (letter j) (letter k)).hole = pegsOn s.hole - 1 := by
  obtain ⟨d1, d2, d3⟩ := hd
  rw [updateBoard_letters]
  have e1 := pegsOn_set s.hole i '.'
  have e2 := pegsOn_set (fun x => if x = i then '.' else s.hole x) j '.'
  have e3 := pegsOn_set (fun x => if x = j then '.' else if x = i then '.' else s.hole x) k 'T'
  have n1 : j ≠ i := fun e => d1 e.symm
  have n2 : k ≠ j := fun e => d2 e.symm
  have n3 : k ≠ i := fun e => d3 e.symm
  simp only [n1, n2, n3, if_false, hi, hj, hk] at e1 e2 e3
  simp at e1 e2 e3
  show pegsOn (fun x => if x = k then 'T' else if x = j then '.' else
    if x = i then '.' else s.hole x) = pegsOn s.hole - 1
  omega

theorem updateBoard_wellFormed {s : State} (hw : WellFormed s) (i j k : Fin 15) :
    WellFormed (updateBoard s (letter i) (letter j) (letter k)) := by
  rw [updateBoard_letters]
  refine ⟨?_, hw.2⟩
  intro x
  show (if x = k then 'T' else if x = j then '.' else if x = i then '.' else s.hole x) = 'T' ∨
    (if x = k then 'T' else if x = j then '.' else if x = i then '.' else s.hole x) = '.'
  split_ifs
  · left; rfl
  · right; rfl
  · right; rfl
  · exact hw.1 x

theorem reachable_inv_peg {s : State} (h : Reachable s) :
    WellFormed s ∧ s.pegCount = pegsOn s.hole := by
  induction h with
  | start => exact ⟨initial_wellFormed, by decide⟩
  | move frm over dest _ hv ih =>
    obtain ⟨hw, hc⟩ := ih
    obtain ⟨i, j, k, e1, e2, e3, hd, hi, hj, hk, _⟩ := isValid_holes hw hv
    subst e1 e2 e3
    refine ⟨updateBoard_wellFormed hw i j k, ?_⟩
    rw [updateBoard_pegsOn _ hd hi hj hk, updateBoard_letters, hc]

theorem reachable_playMoves (moves : List (Char × Char × Char)) :
    ∀ s : State, Reachable s → Reachable (playMoves s moves) := by
  induction moves with
  | nil => intro s h; exact h
  | cons m rest ih =>
    intro s h
    obtain ⟨frm, over, dest⟩ := m
    simp only [playMoves]
    split_ifs with hv
    · exact ih _ (Reachable.move frm over dest h hv)
    · exact ih _ h

theorem step_win_iff (s : State) (move : List Char) :
    step s move = Outcome.win ↔ s.pegCount = 1 := by
  unfold step
  by_cases h1 : s.pegCount = 1
  · simp [h1]
  · simp only [h1, if_false, iff_false]
    split_ifs
    · intro h; cases h
    · split
      · split_ifs <;> (intro h; cases h)
      · intro h; cases h

/-- C25.  Peg count and win.  In every state reachable from the initial board
by moves that `isValid` accepts and `updateBoard` applies, `pegCount` equals the
number of holes holding `'T'`; each such move names three different holes,
empties the holes of `frm` and `over`, fills the hole of `dest`, changes no
other hole and lowers `pegCount` (and the number of pegs) by exactly 1; and an
iteration of the loop of `main` shows the win message if and only if exactly
one peg is on the board. -/
theorem peg_count_and_win :
    (∀ s : State, Reachable s → s.pegCount = pegsOn s.hole) ∧
    (∀ (s : State) (frm over dest : Char), Reachable s → isValid s frm over dest = true →
      ∃ i j k : Fin 15, frm = letter i ∧ over = letter j ∧ dest = letter k ∧
        (i ≠ j ∧ j ≠ k ∧ i ≠ k) ∧
        s.hole i = 'T' ∧ s.hole j = 'T' ∧ s.hole k = '.' ∧
        (updateBoard s frm over dest).hole i = '.' ∧
        (updateBoard s frm over dest).hole j = '.' ∧
        (updateBoard s frm over dest).hole k = 'T' ∧
        (∀ x : Fin 15, x ≠ i → x ≠ j → x ≠ k →
          (updateBoard s frm over dest).hole x = s.hole x) ∧
        (updateBoard s frm over dest).pegCount = s.pegCount - 1 ∧
        pegsOn (updateBoard s frm over dest).hole = pegsOn s.hole - 1) ∧
    (∀ (s : State) (move : List Char), Reachable s →
      (step s move = Outcome.win ↔ pegsOn s.hole = 1)) := by
  refine ⟨fun s hs => (reachable_inv_peg hs).2, ?_, ?_⟩
  · intro s frm over dest hs hv
    obtain ⟨i, j, k, e1, e2, e3, hd, hi, hj, hk, _⟩ :=
      isValid_holes (reachable_inv_peg hs).1 hv
    subst e1 e2 e3
    refine ⟨i, j, k, rfl, rfl, rfl, hd, hi, hj, hk, ?_, ?_, ?_, ?_, ?_,
      updateBoard_pegsOn s hd hi hj hk⟩
    · rw [updateBoard_letters]
      simp [hd.2.2, hd.1]
    · rw [updateBoard_letters]
      simp [hd.2.1]
    · rw [updateBoard_letters]
      simp
    · intro x x1 x2 x3
      rw [updateBoard_letters]
      simp [x1, x2, x3]
    · rw [updateBoard_letters]
  · intro s move hs
    rw [step_win_iff, (reachable_inv_peg hs).2]

theorem peg_count_and_win_witness :
    Reachable (playMoves initial winningMoves) ∧
    (playMoves initial winningMoves).pegCount = 1 ∧
    pegsOn (playMoves initial winningMoves).hole = 1 ∧
    step (playMoves initial winningMoves) ['F', 'C', 'A'] = Outcome.win ∧
    (Reachable initial ∧ isValid initial 'F' 'C' 'A' = true ∧
      (updateBoard initial 'F' 'C' 'A').pegCount = 13 ∧
      pegsOn (updateBoard initial 'F' 'C' 'A').hole = 13) :=
  have hr := reachable_playMoves winningMoves initial Reachable.start
  have h1 := peg_count_and_win.1 (playMoves initial winningMoves) hr
  have h3 := (peg_count_and_win.2.2 (playMoves initial winningMoves) ['F', 'C', 'A'] hr).2
  ⟨hr, by decide, by rw [← h1]; decide, h3 (by rw [← h1]; decide),
   ⟨Reachable.start, by decide, by decide, by decide⟩⟩

/-- C24, evaluated on the code.  After the six accepted moves of `stuckMoves`
eight pegs remain and `isValid` rejects every triple of characters, yet the
loop of `main` does not stop: `pegCount` is not 1, so the win test fails, and
whatever the player enters other than `Q` the loop goes round again with the
same state and prompts for a move. -/
theorem stuck_state_keeps_prompting :
    Reachable (playMoves initial stuckMoves) ∧
    (playMoves initial stuckMoves).pegCount = 8 ∧
    (∀ frm over dest : Char, isValid (playMoves initial stuckMoves) frm over dest = false) ∧
    (∀ move : List Char, step (playMoves initial stuckMoves) move ≠ Outcome.win) ∧
    ∀ move : List Char, move ≠ ['Q'] →
      step (playMoves initial stuckMoves) move
        = Outcome.next (playMoves initial stuckMoves) := by
  have hr := reachable_playMoves stuckMoves initial Reachable.start
  have hw := (reachable_inv_peg hr).1
  have hc : (playMoves initial stuckMoves).pegCount = 8 := by decide
  have hno : ∀ frm over dest : Char,
      isValid (playMoves initial stuckMoves) frm over dest = false := by
    intro frm over dest
    cases hv : isValid (playMoves initial stuckMoves) frm over dest with
    | false => rfl
    | true =>
      obtain ⟨i, j, k, e1, e2, e3, _, _, _, _, _⟩ := isValid_holes hw hv
      subst e1 e2 e3
      have hall : ∀ i j k : Fin 15,
          isValid (playMoves initial stuckMoves) (letter i) (letter j) (letter k) = false := by
        decide
      rw [hall i j k] at hv
      cases hv
  refine ⟨hr, hc, hno, ?_, ?_⟩
  · intro move h
    have := (step_win_iff _ move).1 h
    rw [hc] at this
    cases this
  · intro move hq
    unfold step
    have h1 : ¬ (playMoves initial stuckMoves).pegCount = 1 := by
      rw [hc]; decide
    rw [if_neg h1, if_neg hq]
    split
    · rw [hno]
      rfl
    · rfl

end PegGame
